/-
Verification development for the niche-loops mesh-editing add-on
(src/niche-loops.py).

The Python source operates on a host-owned polygon mesh.  We embed the
mesh data the operators read and write (vertex positions and selection
flags, edge endpoint pairs and selection flags, face vertex lists) and
translate each operator's selection-resolution and scaling logic
directly from the source.  Host editing primitives that the source
calls but does not define (connect_verts, subdivide_edges) are kept
abstract in a Host record; the host-provided edge_keys property of a
polygon is modelled the way the host computes it (the canonical
ordered pair per consecutive vertex pair of the face).

Python integer arithmetic with negative operands is mirrored with Int
and its nonnegative remainder; Python insertion-ordered dicts used for
deduplication are mirrored by dictInsert below.  Vertex coordinates
are rational triples.
-/
import Mathlib

/-- Coordinate vector, componentwise rational. -/
abbrev Vec3 : Type := ℚ × ℚ × ℚ

/-- A mesh vertex as the source reads it: a position and a selection flag. -/
structure MeshVertex where
  co : Vec3
  select : Bool
  deriving DecidableEq, Repr

instance : Inhabited MeshVertex := ⟨⟨(0, 0, 0), false⟩⟩

/-- A mesh edge as the source reads it: two endpoint vertex indices (stored in
either order by the host) and a selection flag. -/
structure MeshEdge where
  v1 : ℕ
  v2 : ℕ
  select : Bool
  deriving DecidableEq, Repr

/-- A mesh polygon: the ordered list of its vertex indices. -/
structure MeshPolygon where
  vertices : List ℕ
  deriving DecidableEq, Repr

instance : Inhabited MeshPolygon := ⟨⟨[]⟩⟩

/-- The mesh snapshot an operator invocation works on. -/
structure Mesh where
  vertices : List MeshVertex
  edges : List MeshEdge
  polygons : List MeshPolygon
  deriving DecidableEq, Repr

/-- Outcome token returned to the host (CANCELLED or FINISHED). -/
inductive OpStatus where
  | CANCELLED : OpStatus
  | FINISHED : OpStatus
  deriving DecidableEq, Repr

/-- NlBuildType from the source: selects the Build End or Build Corner path. -/
inductive NlBuildType where
  | end_ : NlBuildType
  | corner : NlBuildType
  deriving DecidableEq, Repr

/-- reverse from the source: a 2-tuple with the values in reverse order. -/
def reverse (tuples : ℕ × ℕ) : ℕ × ℕ := (tuples.2, tuples.1)

/-- Modelled from the host: the canonical ordered pair used in a face's
edge-key list, smaller index first. -/
def ord_ind (i1 i2 : ℕ) : ℕ × ℕ := if i1 < i2 then (i1, i2) else (i2, i1)

/-- The canonical form of an edge's endpoint pair, smaller index first. -/
def sortedPair (e : ℕ × ℕ) : ℕ × ℕ := ord_ind e.1 e.2

/-- Modelled from the host: the edge_keys property of a polygon, one canonical
pair per consecutive vertex pair around the face. -/
def edge_keys (p : MeshPolygon) : List (ℕ × ℕ) :=
  (List.range p.vertices.length).map
    (fun i => ord_ind (p.vertices.getD i 0)
      (p.vertices.getD ((i + 1) % p.vertices.length) 0))

/-- Modelled from the host: scaling a point about a pivot, the effect of the
host scale primitive with a uniform factor and a translation space matrix. -/
def scalePoint (factor : ℚ) (center p : Vec3) : Vec3 := center + factor • (p - center)

/-- Modelled from the host: linear interpolation between two points. -/
def lerpV (p q : Vec3) (t : ℚ) : Vec3 := p + t • (q - p)

/-- Apply the scale primitive to the vertices whose index (offset by i) is in
targets, leaving every other vertex record untouched. -/
def scaleVertsFrom (targets : List ℕ) (factor : ℚ) (center : Vec3) :
    ℕ → List MeshVertex → List MeshVertex
  | _, [] => []
  | i, v :: rest =>
    (if i ∈ targets then { v with co := scalePoint factor center v.co } else v) ::
      scaleVertsFrom targets factor center (i + 1) rest

/-- Modelled from the host: the scale primitive moves the listed vertices and
changes nothing else of the mesh. -/
def scaleMesh (m : Mesh) (targets : List ℕ) (factor : ℚ) (center : Vec3) : Mesh :=
  { m with vertices := scaleVertsFrom targets factor center 0 m.vertices }

/-- Indices of the selected vertices, in index order, as the selection snapshot
read from data.vertices produces them. -/
def selectedVertIndices (data : Mesh) : List ℕ :=
  (List.range data.vertices.length).filter (fun i => (data.vertices.getD i default).select)

/-- The selected edges, in the order they appear in data.edges. -/
def selectedEdges (data : Mesh) : List MeshEdge :=
  data.edges.filter (fun e => e.select)

/-- Abstract host editing primitives used by the builders: connect_verts
returns the updated mesh and the created edge handles, subdivide_edges returns
the updated mesh and the created inner vertex indices. -/
structure Host where
  connect_verts : Mesh → ℕ → ℕ → Mesh × List ℕ
  subdivide_edges : Mesh → List ℕ → Mesh × List ℕ

/-- Translated from build_end (niche-loops.py): index, inside the hexagon
cycle, of the opposite vertex for the selected vertex at cycle position
first_selected_index, the other selected vertex being at position
second_selected_index.  Python arithmetic on possibly negative ints is
mirrored with Int and its nonnegative remainder. -/
def buildEndTriIndex (first_selected_index second_selected_index : ℕ) : ℕ :=
  ((if ((first_selected_index : ℤ) + 1) % 6 ≠ (second_selected_index : ℤ) then
      (first_selected_index : ℤ) + 2
    else
      (first_selected_index : ℤ) - 2) % 6).toNat

/-- Modelled from the spec wording of claim C2: step +2 when the next-cycle
neighbour equals the other selected vertex, and -2 otherwise. -/
def claimedTriIndex (first_selected_index second_selected_index : ℕ) : ℕ :=
  ((if ((first_selected_index : ℤ) + 1) % 6 = (second_selected_index : ℤ) then
      (first_selected_index : ℤ) + 2
    else
      (first_selected_index : ℤ) - 2) % 6).toNat

/-- Translated from NlBuildEnd.build_end. -/
def build_end (host : Host) (data : Mesh) (all_verts_indices : List ℕ)
    (selected_verts_indices : ℕ × ℕ) (slide_edge : ℚ) : OpStatus × Mesh :=
  let first_selected_index := all_verts_indices.indexOf selected_verts_indices.1
  let second_selected_index := all_verts_indices.indexOf selected_verts_indices.2
  let first_tri_index := buildEndTriIndex first_selected_index second_selected_index
  let second_tri_index := buildEndTriIndex second_selected_index first_selected_index
  let first_edge := host.connect_verts data selected_verts_indices.1
    (all_verts_indices.getD first_tri_index 0)
  let second_edge := host.connect_verts first_edge.1 selected_verts_indices.2
    (all_verts_indices.getD second_tri_index 0)
  let new_edges := first_edge.2 ++ second_edge.2
  let output := host.subdivide_edges second_edge.1 new_edges
  let new_verts := output.2.take 2
  if new_verts.length ≠ 2 then
    -- warning path: result might not be as expected, still FINISHED
    (OpStatus.FINISHED, output.1)
  else
    let nv0 := new_verts.getD 0 0
    let nv1 := new_verts.getD 1 0
    let center_point := lerpV ((output.1.vertices.getD nv0 default).co)
      ((output.1.vertices.getD nv1 default).co) (1 / 2)
    (OpStatus.FINISHED, scaleMesh output.1 [nv0, nv1] slide_edge center_point)

/-- Translated from NlBuildCorner.build_corner. -/
def build_corner (host : Host) (data : Mesh) (all_verts_indices : List ℕ)
    (selected_verts_indices : ℕ × ℕ) (middle_vertex_index : ℕ)
    (slide_vertex : ℚ) : OpStatus × Mesh :=
  let opposite_vertex_index := all_verts_indices.getD ((middle_vertex_index + 3) % 6) 0
  let first_edge := host.connect_verts data selected_verts_indices.1 selected_verts_indices.2
  let output := host.subdivide_edges first_edge.1 first_edge.2
  let created_vertex := output.2.headD 0
  let second_connect := host.connect_verts output.1 created_vertex opposite_vertex_index
  let center_point := (second_connect.1.vertices.getD opposite_vertex_index default).co
  (OpStatus.FINISHED,
    scaleMesh second_connect.1 [created_vertex] slide_vertex center_point)

/-- Translated from nl_build_core: selection validation shared by Build End
and Build Corner, then dispatch. -/
def nl_build_core (host : Host) (type : NlBuildType) (data : Mesh)
    (operator_factor : ℚ) : OpStatus × Mesh :=
  let selected_verts := selectedVertIndices data
  if selected_verts.length ≠ 2 then (OpStatus.CANCELLED, data)
  else
    let ngons := data.polygons.filter (fun p => p.vertices.length = 6)
    if ngons.length < 1 then (OpStatus.CANCELLED, data)
    else
      let selected_verts_indices := (selected_verts.getD 0 0, selected_verts.getD 1 0)
      match ngons.find? (fun p =>
          (p.vertices.filter (fun j =>
            j = selected_verts_indices.1 ∨ j = selected_verts_indices.2)).length = 2) with
      | none => (OpStatus.CANCELLED, data)
      | some ngon_to_cut =>
        let all_edge_keys := edge_keys ngon_to_cut
        let all_verts_indices := ngon_to_cut.vertices
        match type with
        | NlBuildType.end_ =>
          if selected_verts_indices ∈ all_edge_keys then
            build_end host data all_verts_indices selected_verts_indices operator_factor
          else (OpStatus.CANCELLED, data)
        | NlBuildType.corner =>
          let first_vert_in_list := all_verts_indices.indexOf selected_verts_indices.1
          let expected_second_vert_in_list := (first_vert_in_list + 2) % 6
          let middle_vertex_index := (first_vert_in_list + 1) % 6
          if all_verts_indices.getD expected_second_vert_in_list 0 = selected_verts_indices.2 then
            build_corner host data all_verts_indices selected_verts_indices
              middle_vertex_index operator_factor
          else
            let second_vert_in_list := all_verts_indices.indexOf selected_verts_indices.2
            let expected_first_vert_in_list := (second_vert_in_list + 2) % 6
            if expected_first_vert_in_list ≠ first_vert_in_list then
              (OpStatus.CANCELLED, data)
            else
              build_corner host data all_verts_indices selected_verts_indices
                ((second_vert_in_list + 1) % 6) operator_factor

/-- Translated from get_corresponding_indices: the complementary vertex of
each endpoint of an edge of a quad face. -/
def get_corresponding_indices (face_verts : List ℕ) (selected_verts : ℕ × ℕ) : ℕ × ℕ :=
  let firt_selected_index : ℤ := face_verts.indexOf selected_verts.1
  let second_selected_index : ℤ := face_verts.indexOf selected_verts.2
  let first_corresponding_index :=
    if (firt_selected_index + 1) % 4 ≠ second_selected_index then firt_selected_index + 1
    else firt_selected_index - 1
  let second_corresponding_index :=
    if (second_selected_index + 1) % 4 ≠ firt_selected_index then second_selected_index + 1
    else second_selected_index - 1
  (face_verts.getD (first_corresponding_index % 4).toNat 0,
   face_verts.getD (second_corresponding_index % 4).toNat 0)

/-- Modelled from the Python insertion-ordered dict: inserting with a key that
is present replaces the value in place, otherwise the entry is appended. -/
def dictInsert {α : Type} (k : ℕ) (v : α) : List (ℕ × α) → List (ℕ × α)
  | [] => [(k, v)]
  | p :: rest => if p.1 = k then (k, v) :: rest else p :: dictInsert k v rest

/-- The values of the Python dict built by a comprehension keyed with key,
in insertion order: the deduplication device of both adjust operators. -/
def pyDictValues {α : Type} (key : α → ℕ) (l : List α) : List α :=
  (l.foldl (fun d x => dictInsert (key x) x d) []).map Prod.snd

/-- The last element of l whose key is k, if any. -/
def lastWithKey {α : Type} (key : α → ℕ) (l : List α) (k : ℕ) : Option α :=
  l.reverse.find? (fun x => key x = k)

/-- Translated from nl_adjust_loops: the inner loop body over the selected
edges for one quad face with edge-key list ek.  The per-edge entries of verts
are normalised in place when an edge matches only in reversed order; the
per-face match count and matching edge index list are threaded through, and
the loop breaks once the count reaches 3. -/
def adjustFaceScan (ek : List (ℕ × ℕ)) :
    ℕ → ℕ → List ℕ → List (ℕ × ℕ) → List (ℕ × ℕ) × ℕ × List ℕ
  | _, cnt, fdata, [] => ([], cnt, fdata)
  | j, cnt, fdata, vj :: rest =>
    if cnt ≥ 3 then (vj :: rest, cnt, fdata)
    else if vj ∈ ek then
      let out := adjustFaceScan ek (j + 1) (cnt + 1) (fdata ++ [j]) rest
      (vj :: out.1, out.2)
    else if reverse vj ∈ ek then
      let out := adjustFaceScan ek (j + 1) (cnt + 1) (fdata ++ [j]) rest
      (reverse vj :: out.1, out.2)
    else
      let out := adjustFaceScan ek (j + 1) cnt fdata rest
      (vj :: out.1, out.2)

/-- Translated from nl_adjust_loops: the outer loop over all polygons.
Returns the final per-edge vertex tuples and, per face in order, the match
count and the list of matching selected-edge indices (non-quads get 0 and
the empty list, as their entries are never touched). -/
def adjustMatchPhase : List MeshPolygon → List (ℕ × ℕ) →
    List (ℕ × ℕ) × List (ℕ × List ℕ)
  | [], verts => (verts, [])
  | p :: ps, verts =>
    if (edge_keys p).length ≠ 4 then
      let out := adjustMatchPhase ps verts
      (out.1, (0, []) :: out.2)
    else
      let s := adjustFaceScan (edge_keys p) 0 0 [] verts
      let out := adjustMatchPhase ps s.1
      (out.1, (s.2.1, s.2.2) :: out.2)

/-- The selected edges of the mesh as endpoint tuples, before any
normalisation. -/
def adjustLoopsVerts (data : Mesh) : List (ℕ × ℕ) :=
  (selectedEdges data).map (fun e => (e.v1, e.v2))

/-- Translated from nl_adjust_loops: the face filter. Keeps, as (face index,
first matched edge tuple), the quad faces with exactly 2 matching selected
edges whose positions in the face's edge-key list differ by exactly 2. -/
def adjustLoopsFilterAux : ℕ → List MeshPolygon → List (ℕ × List ℕ) →
    List (ℕ × ℕ) → List (ℕ × (ℕ × ℕ))
  | _, [], _, _ => []
  | _, _ :: _, [], _ => []
  | i, p :: ps, fd :: fds, verts =>
    let tail := adjustLoopsFilterAux (i + 1) ps fds verts
    if fd.1 ≠ 2 then tail
    else
      let ek := edge_keys p
      let edge_0 := verts.getD (fd.2.getD 0 0) (0, 0)
      let edge_1 := verts.getD (fd.2.getD 1 0) (0, 0)
      let index_0 := ek.indexOf edge_0
      let index_1 := ek.indexOf edge_1
      if ((index_0 : ℤ) - (index_1 : ℤ)).natAbs ≠ 2 then tail
      else (i, edge_0) :: tail

/-- The match phase of nl_adjust_loops run on the mesh. -/
def adjustLoopsMatch (data : Mesh) : List (ℕ × ℕ) × List (ℕ × List ℕ) :=
  adjustMatchPhase data.polygons (adjustLoopsVerts data)

/-- The filtered face list of nl_adjust_loops. -/
def adjustLoopsFiltered (data : Mesh) : List (ℕ × (ℕ × ℕ)) :=
  adjustLoopsFilterAux 0 data.polygons (adjustLoopsMatch data).2 (adjustLoopsMatch data).1

/-- Translated from nl_adjust_loops: the list_of_2_points pair list, two
sorted rail-vertex pairs per kept face. -/
def adjustLoopsPairs (data : Mesh) : List (ℕ × ℕ) :=
  (adjustLoopsFiltered data).flatMap (fun fi =>
    let corresponding_vertices :=
      get_corresponding_indices (data.polygons.getD fi.1 default).vertices fi.2
    [(min fi.2.1 corresponding_vertices.1, max fi.2.1 corresponding_vertices.1),
     (min fi.2.2 corresponding_vertices.2, max fi.2.2 corresponding_vertices.2)])

/-- Translated from nl_adjust_loops: the unique_points list, the pair list
deduplicated through the Python dict keyed by each pair's first (smaller)
vertex index. -/
def adjustLoopsUnique (data : Mesh) : List (ℕ × ℕ) :=
  pyDictValues (fun p => p.1) (adjustLoopsPairs data)

/-- Translated from nl_adjust_loops: the final scale loop, one scale about the
current midpoint of each unique pair, applied sequentially. -/
def adjustScaleFold (adjustment : ℚ) : Mesh → List (ℕ × ℕ) → Mesh
  | m, [] => m
  | m, points :: rest =>
    let center_point := lerpV ((m.vertices.getD points.1 default).co)
      ((m.vertices.getD points.2 default).co) (1 / 2)
    adjustScaleFold adjustment
      (scaleMesh m [points.1, points.2] adjustment center_point) rest

/-- Translated from nl_adjust_loops: full operator on a mesh snapshot. -/
def nl_adjust_loops (data : Mesh) (adjustment : ℚ) : OpStatus × Mesh :=
  if (selectedEdges data).length < 2 then (OpStatus.CANCELLED, data)
  else if (adjustLoopsFiltered data).length ≤ 0 then (OpStatus.CANCELLED, data)
  else (OpStatus.FINISHED, adjustScaleFold adjustment data (adjustLoopsUnique data))

/-- Per-edge record of NlAdjustAdjacentLoops.adjust_adjacent_loops: the edge's
endpoint tuple, its linked face list and its found-face count. -/
abbrev AdjRec : Type := (ℕ × ℕ) × List ℕ × ℕ

/-- Translated from adjust_adjacent_loops: the loop body for one quad face
(index i, edge-key list ek) applied to the record of one selected edge.  The
body reads and writes only this record, so the inner loop is its map. -/
def adjAdjFaceStep (ek : List (ℕ × ℕ)) (i : ℕ) (r : AdjRec) : AdjRec :=
  if r.2.2 ≥ 2 then r
  else if r.1 ∈ ek then (r.1, r.2.1 ++ [i], r.2.2 + 1)
  else if reverse r.1 ∈ ek then (reverse r.1, r.2.1 ++ [i], r.2.2 + 1)
  else r

/-- Translated from adjust_adjacent_loops: the outer loop over all polygons,
threading the per-edge records. -/
def adjAdjMatchPhase : ℕ → List MeshPolygon → List AdjRec → List AdjRec
  | _, [], recs => recs
  | i, p :: ps, recs =>
    if (edge_keys p).length ≠ 4 then adjAdjMatchPhase (i + 1) ps recs
    else adjAdjMatchPhase (i + 1) ps (recs.map (adjAdjFaceStep (edge_keys p) i))

/-- The selected edges of the mesh as endpoint tuples. -/
def adjAdjVerts (data : Mesh) : List (ℕ × ℕ) :=
  (selectedEdges data).map (fun e => (e.v1, e.v2))

/-- The initial per-edge records: no linked face found yet. -/
def adjAdjInitRecs (data : Mesh) : List AdjRec :=
  (adjAdjVerts data).map (fun v => (v, [], 0))

/-- The per-edge records after the face search of adjust_adjacent_loops. -/
def adjAdjRecords (data : Mesh) : List AdjRec :=
  adjAdjMatchPhase 0 data.polygons (adjAdjInitRecs data)

/-- Translated from adjust_adjacent_loops: the deletion pass keeps exactly the
records with 2 linked faces. -/
def adjAdjKept (data : Mesh) : List AdjRec :=
  (adjAdjRecords data).filter (fun r => r.2.2 = 2)

/-- Translated from adjust_adjacent_loops: the list_of_3_points cross-section
list, two (far, edge, far) triples per kept edge. -/
def adjAdjTriples (data : Mesh) : List (ℕ × ℕ × ℕ) :=
  (adjAdjKept data).flatMap (fun r =>
    let face_0 := get_corresponding_indices
      (data.polygons.getD (r.2.1.getD 0 0) default).vertices r.1
    let face_1 := get_corresponding_indices
      (data.polygons.getD (r.2.1.getD 1 0) default).vertices r.1
    [(face_0.1, r.1.1, face_1.1), (face_0.2, r.1.2, face_1.2)])

/-- Translated from adjust_adjacent_loops: the unique_points list, the triples
deduplicated through the Python dict keyed by the middle (edge) vertex. -/
def adjAdjUnique (data : Mesh) : List (ℕ × ℕ × ℕ) :=
  pyDictValues (fun t => t.2.1) (adjAdjTriples data)

/-- Translated from adjust_adjacent_loops: the final scale loop, scaling the
two outer vertices of each unique cross-section about its middle vertex. -/
def adjAdjScaleFold (adjustment : ℚ) : Mesh → List (ℕ × ℕ × ℕ) → Mesh
  | m, [] => m
  | m, points :: rest =>
    let center_point := (m.vertices.getD points.2.1 default).co
    adjAdjScaleFold adjustment
      (scaleMesh m [points.1, points.2.2] adjustment center_point) rest

/-- Translated from NlAdjustAdjacentLoops.adjust_adjacent_loops: full operator
on a mesh snapshot. -/
def adjust_adjacent_loops (data : Mesh) (adjustment : ℚ) : OpStatus × Mesh :=
  if (selectedEdges data).length < 1 then (OpStatus.CANCELLED, data)
  else (OpStatus.FINISHED, adjAdjScaleFold adjustment data (adjAdjUnique data))

/-- Spec-side count for claim C4: the number of quad faces of the mesh whose
edge-key list contains the (canonicalised) edge e. -/
def numQuadFacesWithEdge (data : Mesh) (e : ℕ × ℕ) : ℕ :=
  data.polygons.countP (fun p => p.vertices.length = 4 ∧ sortedPair e ∈ edge_keys p)

/-- Test mesh: one quad with its two horizontal edges selected, plus an
isolated extra vertex. -/
def M1 : Mesh :=
  { vertices := [⟨(0, 0, 0), false⟩, ⟨(1, 0, 0), false⟩, ⟨(1, 1, 0), false⟩,
                 ⟨(0, 1, 0), false⟩, ⟨(5, 5, 5), false⟩],
    edges := [⟨0, 1, true⟩, ⟨1, 2, false⟩, ⟨2, 3, true⟩, ⟨3, 0, false⟩],
    polygons := [⟨[0, 1, 2, 3]⟩] }

/-- Test mesh: two qualifying quads whose rail-vertex pairs (0,3) and (0,6)
share the smaller vertex index 0. -/
def M2 : Mesh :=
  { vertices := [⟨(0, 0, 0), false⟩, ⟨(1, 0, 0), false⟩, ⟨(2, 0, 0), false⟩,
                 ⟨(3, 0, 0), false⟩, ⟨(4, 0, 0), false⟩, ⟨(5, 0, 0), false⟩,
                 ⟨(6, 0, 0), false⟩],
    edges := [⟨0, 1, true⟩, ⟨1, 2, false⟩, ⟨2, 3, true⟩, ⟨3, 0, false⟩,
              ⟨0, 4, true⟩, ⟨4, 5, false⟩, ⟨5, 6, true⟩, ⟨6, 0, false⟩],
    polygons := [⟨[0, 1, 2, 3]⟩, ⟨[0, 4, 5, 6]⟩] }

/-- Test mesh: one selected edge shared by three quad faces (non-manifold). -/
def M3 : Mesh :=
  { vertices := [⟨(0, 0, 0), false⟩, ⟨(1, 0, 0), false⟩, ⟨(2, 0, 0), false⟩,
                 ⟨(3, 0, 0), false⟩, ⟨(4, 0, 0), false⟩, ⟨(5, 0, 0), false⟩,
                 ⟨(6, 0, 0), false⟩, ⟨(7, 0, 0), false⟩],
    edges := [⟨0, 1, true⟩],
    polygons := [⟨[0, 1, 2, 3]⟩, ⟨[0, 1, 4, 5]⟩, ⟨[0, 1, 6, 7]⟩] }

/-- Test mesh: one selected edge bordered by no face at all. -/
def M4 : Mesh :=
  { vertices := [⟨(0, 0, 0), false⟩, ⟨(1, 0, 0), false⟩],
    edges := [⟨0, 1, true⟩], polygons := [] }

/-- Test mesh: a single hexagon with vertices 0 and 2 selected (one vertex
between them). -/
def M5 : Mesh :=
  { vertices := [⟨(0, 0, 0), true⟩, ⟨(1, 0, 0), false⟩, ⟨(2, 4, 0), true⟩,
                 ⟨(3, 9, 0), false⟩, ⟨(4, 16, 0), false⟩, ⟨(5, 25, 0), false⟩],
    edges := [], polygons := [⟨[0, 1, 2, 3, 4, 5]⟩] }

/-- A concrete host instance for witnesses: connect creates edge handle 7 and
moves nothing, subdivide appends one vertex at (100,0,0) and reports it. -/
def trivialHost : Host :=
  { connect_verts := fun m _ _ => (m, [7]),
    subdivide_edges := fun m _ =>
      ({ m with vertices := m.vertices ++ [⟨(100, 0, 0), false⟩] }, [m.vertices.length]) }

/-- Positions (starting at offset j) of the entries of a selected-edge tuple
list whose canonical pair occurs in the edge-key list ek. -/
def matchPosFrom (ek : List (ℕ × ℕ)) : ℕ → List (ℕ × ℕ) → List ℕ
  | _, [] => []
  | j, v :: rest =>
    if sortedPair v ∈ ek then j :: matchPosFrom ek (j + 1) rest
    else matchPosFrom ek (j + 1) rest

/-- Canonicalisation of the entries of a tuple list that match ek, stopping
after b matches: the effect of one face scan of nl_adjust_loops on the
per-edge tuples. -/
def normBudget (ek : List (ℕ × ℕ)) : ℕ → List (ℕ × ℕ) → List (ℕ × ℕ)
  | _, [] => []
  | 0, vs => vs
  | b + 1, v :: rest =>
    if sortedPair v ∈ ek then sortedPair v :: normBudget ek b rest
    else v :: normBudget ek (b + 1) rest

/-- Spec-side per-face data for claim C5: what the match loop of
nl_adjust_loops records for each polygon, capped match count first, matching
selected-edge positions second. -/
def faceDataSpec (vs : List (ℕ × ℕ)) : List MeshPolygon → List (ℕ × List ℕ)
  | [] => []
  | p :: ps =>
    (if (edge_keys p).length ≠ 4 then (0, [])
     else (min 3 (vs.countP (fun v => sortedPair v ∈ edge_keys p)),
           (matchPosFrom (edge_keys p) 0 vs).take 3)) :: faceDataSpec vs ps

/-- Spec-side device for claim C5: the positions, in selection order, of the
selected edges matching a face's edge-key list in either orientation. -/
def selMatches (data : Mesh) (ek : List (ℕ × ℕ)) : List ℕ :=
  matchPosFrom ek 0 (adjustLoopsVerts data)

/-- C2 counterexample: for the cyclically adjacent positions 0 and 1 of a
hexagon cycle, the source computes the opposite index 4 (step -2 when the +1
neighbour is the other selected vertex), while the rule stated in the claim
(step +2 in that case) gives index 2. -/
theorem C2_counterexample :
    ((0 : ℕ) + 1) % 6 = 1 ∧ buildEndTriIndex 0 1 = 4 ∧ claimedTriIndex 0 1 = 2 ∧
      buildEndTriIndex 0 1 ≠ claimedTriIndex 0 1 := by decide

/-- C2 (amended): for cyclically adjacent cycle positions, the opposite index
computed by build_end steps -2 (that is, +4 mod 6) when the +1-mod-6
neighbour of the selected vertex is the other selected vertex, and +2
otherwise -- the side away from the other selected vertex. -/
theorem C2_opposite_index (fi si : Fin 6)
    (hadj : (si : ℕ) = ((fi : ℕ) + 1) % 6 ∨ (fi : ℕ) = ((si : ℕ) + 1) % 6) :
    buildEndTriIndex (fi : ℕ) (si : ℕ) =
      (if ((fi : ℕ) + 1) % 6 = (si : ℕ) then ((fi : ℕ) + 4) % 6
       else ((fi : ℕ) + 2) % 6) := by
  revert hadj; revert si; revert fi; decide

/-- Witness for C2_opposite_index at the adjacent positions 0 and 1. -/
theorem C2_opposite_index_witness :
    (((1 : Fin 6) : ℕ) = (((0 : Fin 6) : ℕ) + 1) % 6 ∨
      ((0 : Fin 6) : ℕ) = (((1 : Fin 6) : ℕ) + 1) % 6) ∧
    buildEndTriIndex ((0 : Fin 6) : ℕ) ((1 : Fin 6) : ℕ) =
      (if (((0 : Fin 6) : ℕ) + 1) % 6 = ((1 : Fin 6) : ℕ) then (((0 : Fin 6) : ℕ) + 4) % 6
       else (((0 : Fin 6) : ℕ) + 2) % 6) :=
  ⟨Or.inl (by decide), C2_opposite_index 0 1 (Or.inl (by decide))⟩

/-- C10: on mesh M2 both quads pass every filter of Adjust Loops, the derived
pair list holds the two distinct pairs (0,3) and (0,6) sharing smaller index
0, the dedup keyed on the smaller index retains only one of them, and running
the operator (adjustment 0) moves vertex 6 but leaves vertex 3 exactly where
it was. -/
theorem C10_dedup_drops_shared_key_pair :
    adjustLoopsFiltered M2 = [(0, (0, 1)), (1, (0, 4))] ∧
    adjustLoopsPairs M2 = [(0, 3), (1, 2), (0, 6), (4, 5)] ∧
    adjustLoopsUnique M2 = [(0, 6), (1, 2), (4, 5)] ∧
    (0, 3) ∉ adjustLoopsUnique M2 ∧
    (nl_adjust_loops M2 0).1 = OpStatus.FINISHED ∧
    ((nl_adjust_loops M2 0).2.vertices.getD 3 default).co = (M2.vertices.getD 3 default).co ∧
    ((nl_adjust_loops M2 0).2.vertices.getD 6 default).co ≠ (M2.vertices.getD 6 default).co := by
  have hu : adjustLoopsUnique M2 = [(0, 6), (1, 2), (4, 5)] := by decide
  have hres : nl_adjust_loops M2 0 =
      (OpStatus.FINISHED, adjustScaleFold 0 M2 (adjustLoopsUnique M2)) := by
    unfold nl_adjust_loops
    rw [if_neg (by decide), if_neg (by decide)]
  have h3 : ((nl_adjust_loops M2 0).2.vertices.getD 3 default).co = ((3 : ℚ), (0 : ℚ), (0 : ℚ)) := by
    rw [hres, hu]
    simp [adjustScaleFold, scaleMesh, scaleVertsFrom, M2, lerpV, scalePoint,
      Prod.smul_mk, Prod.mk_add_mk, Prod.mk_sub_mk, smul_eq_mul]
  have h6 : ((nl_adjust_loops M2 0).2.vertices.getD 6 default).co = ((3 : ℚ), (0 : ℚ), (0 : ℚ)) := by
    rw [hres, hu]
    simp [adjustScaleFold, scaleMesh, scaleVertsFrom, M2, lerpV, scalePoint,
      Prod.smul_mk, Prod.mk_add_mk, Prod.mk_sub_mk, smul_eq_mul]
    norm_num
  refine ⟨by decide, by decide, hu, by decide, by rw [hres], ?_, ?_⟩
  · rw [h3]; decide
  · rw [h6, show (M2.vertices.getD 6 default).co = ((6 : ℚ), (0 : ℚ), (0 : ℚ)) from by decide]
    decide

/-- C3 counterexample: in Adjust Loops on mesh M2 the first pair seen with
key 0 is (0,3), yet the deduplicated list retains (0,6), the last pair seen
with that key, so first-occurrence retention fails. -/
theorem C3_counterexample :
    (adjustLoopsPairs M2).find? (fun p => p.1 = 0) = some (0, 3) ∧
    (0, 3) ∉ adjustLoopsUnique M2 ∧ (0, 6) ∈ adjustLoopsUnique M2 := by decide

/-- C1 counterexample: on mesh M4 one edge is selected but zero edges survive
the interior-edge filter of Adjust Adjacent Loops, and the operator returns
FINISHED (with the mesh untouched), not CANCELLED. -/
theorem C1_counterexample :
    (selectedEdges M4).length = 1 ∧ adjAdjKept M4 = [] ∧
    (adjust_adjacent_loops M4 2).1 = OpStatus.FINISHED ∧
    (adjust_adjacent_loops M4 2).1 ≠ OpStatus.CANCELLED ∧
    (adjust_adjacent_loops M4 2).2 = M4 := by decide

/-- C4 counterexample: on mesh M3 the selected edge (0,1) borders three quad
faces (non-manifold), yet Adjust Adjacent Loops retains it (its capped
found-face count is 2) and scaling moves the mesh. -/
theorem C4_counterexample :
    numQuadFacesWithEdge M3 (0, 1) = 3 ∧ numQuadFacesWithEdge M3 (0, 1) ≠ 2 ∧
    adjAdjKept M3 = [((0, 1), [0, 1], 2)] ∧
    ((adjust_adjacent_loops M3 2).2.vertices.getD 3 default).co ≠
      (M3.vertices.getD 3 default).co := by
  have hu : adjAdjUnique M3 = [(3, 0, 5), (2, 1, 4)] := by decide
  have hres : adjust_adjacent_loops M3 2 =
      (OpStatus.FINISHED, adjAdjScaleFold 2 M3 (adjAdjUnique M3)) := by
    unfold adjust_adjacent_loops
    rw [if_neg (by decide)]
  have h3 : ((adjust_adjacent_loops M3 2).2.vertices.getD 3 default).co =
      ((6 : ℚ), (0 : ℚ), (0 : ℚ)) := by
    rw [hres, hu]
    simp [adjAdjScaleFold, scaleMesh, scaleVertsFrom, M3, scalePoint,
      Prod.smul_mk, Prod.mk_add_mk, Prod.mk_sub_mk, smul_eq_mul]
    norm_num
  refine ⟨by decide, by decide, by decide, ?_⟩
  rw [h3, show (M3.vertices.getD 3 default).co = ((3 : ℚ), (0 : ℚ), (0 : ℚ)) from by decide]
  decide

theorem scalePoint_one (c p : Vec3) : scalePoint 1 c p = p := by
  unfold scalePoint; rw [one_smul]; abel

theorem scaleVertsFrom_one (t : List ℕ) (c : Vec3) :
    ∀ (i : ℕ) (vs : List MeshVertex), scaleVertsFrom t 1 c i vs = vs := by
  intro i vs
  induction vs generalizing i with
  | nil => rfl
  | cons v rest ih =>
    simp only [scaleVertsFrom, scalePoint_one, ih]
    split <;> rfl

theorem scaleMesh_one (m : Mesh) (t : List ℕ) (c : Vec3) : scaleMesh m t 1 c = m := by
  cases m; simp [scaleMesh, scaleVertsFrom_one]

theorem adjustScaleFold_one : ∀ (l : List (ℕ × ℕ)) (m : Mesh), adjustScaleFold 1 m l = m := by
  intro l
  induction l with
  | nil => intro m; rfl
  | cons q rest ih => intro m; simp only [adjustScaleFold, scaleMesh_one, ih]

theorem scaleVertsFrom_length (t : List ℕ) (f : ℚ) (c : Vec3) :
    ∀ (vs : List MeshVertex) (i : ℕ), (scaleVertsFrom t f c i vs).length = vs.length := by
  intro vs
  induction vs with
  | nil => intro i; rfl
  | cons v rest ih => intro i; simp [scaleVertsFrom, ih]

theorem scaleVertsFrom_getD_frame (t : List ℕ) (f : ℚ) (c : Vec3) :
    ∀ (vs : List MeshVertex) (i k : ℕ), (i + k) ∉ t →
      (scaleVertsFrom t f c i vs).getD k default = vs.getD k default := by
  intro vs
  induction vs with
  | nil => intro i k _; rfl
  | cons v rest ih =>
    intro i k hk
    cases k with
    | zero =>
      simp only [scaleVertsFrom, List.getD_cons_zero]
      rw [if_neg (by simpa using hk)]
    | succ k =>
      simp only [scaleVertsFrom, List.getD_cons_succ]
      exact ih (i + 1) k (by convert hk using 2; omega)

theorem adjustScaleFold_edges (a : ℚ) :
    ∀ (l : List (ℕ × ℕ)) (m : Mesh), (adjustScaleFold a m l).edges = m.edges := by
  intro l
  induction l with
  | nil => intro m; rfl
  | cons q rest ih => intro m; simp [adjustScaleFold, ih, scaleMesh]

theorem adjustScaleFold_polygons (a : ℚ) :
    ∀ (l : List (ℕ × ℕ)) (m : Mesh), (adjustScaleFold a m l).polygons = m.polygons := by
  intro l
  induction l with
  | nil => intro m; rfl
  | cons q rest ih => intro m; simp [adjustScaleFold, ih, scaleMesh]

theorem adjustScaleFold_num_verts (a : ℚ) :
    ∀ (l : List (ℕ × ℕ)) (m : Mesh),
      (adjustScaleFold a m l).vertices.length = m.vertices.length := by
  intro l
  induction l with
  | nil => intro m; rfl
  | cons q rest ih =>
    intro m
    rw [adjustScaleFold, ih]
    simp [scaleMesh, scaleVertsFrom_length]

theorem adjustScaleFold_frame (a : ℚ) :
    ∀ (l : List (ℕ × ℕ)) (m : Mesh) (v : ℕ), (∀ q ∈ l, v ≠ q.1 ∧ v ≠ q.2) →
      (adjustScaleFold a m l).vertices.getD v default = m.vertices.getD v default := by
  intro l
  induction l with
  | nil => intro m v _; rfl
  | cons q rest ih =>
    intro m v hv
    rw [adjustScaleFold, ih _ _ (fun r hr => hv r (List.mem_cons_of_mem q hr))]
    have hq := hv q (List.mem_cons_self q rest)
    show (scaleVertsFrom [q.1, q.2] a _ 0 m.vertices).getD v default = _
    rw [scaleVertsFrom_getD_frame]
    simpa using hq

theorem adjAdjScaleFold_edges (a : ℚ) :
    ∀ (l : List (ℕ × ℕ × ℕ)) (m : Mesh), (adjAdjScaleFold a m l).edges = m.edges := by
  intro l
  induction l with
  | nil => intro m; rfl
  | cons q rest ih => intro m; simp [adjAdjScaleFold, ih, scaleMesh]

theorem adjAdjScaleFold_polygons (a : ℚ) :
    ∀ (l : List (ℕ × ℕ × ℕ)) (m : Mesh), (adjAdjScaleFold a m l).polygons = m.polygons := by
  intro l
  induction l with
  | nil => intro m; rfl
  | cons q rest ih => intro m; simp [adjAdjScaleFold, ih, scaleMesh]

theorem adjAdjScaleFold_num_verts (a : ℚ) :
    ∀ (l : List (ℕ × ℕ × ℕ)) (m : Mesh),
      (adjAdjScaleFold a m l).vertices.length = m.vertices.length := by
  intro l
  induction l with
  | nil => intro m; rfl
  | cons q rest ih =>
    intro m
    rw [adjAdjScaleFold, ih]
    simp [scaleMesh, scaleVertsFrom_length]

theorem adjAdjScaleFold_frame (a : ℚ) :
    ∀ (l : List (ℕ × ℕ × ℕ)) (m : Mesh) (v : ℕ), (∀ q ∈ l, v ≠ q.1 ∧ v ≠ q.2.2) →
      (adjAdjScaleFold a m l).vertices.getD v default = m.vertices.getD v default := by
  intro l
  induction l with
  | nil => intro m v _; rfl
  | cons q rest ih =>
    intro m v hv
    rw [adjAdjScaleFold, ih _ _ (fun r hr => hv r (List.mem_cons_of_mem q hr))]
    have hq := hv q (List.mem_cons_self q rest)
    show (scaleVertsFrom [q.1, q.2.2] a _ 0 m.vertices).getD v default = _
    rw [scaleVertsFrom_getD_frame]
    simpa using hq

/-- C8: with adjustment factor 1 every scale step of Adjust Loops is the
identity, so a valid (FINISHED) invocation leaves every vertex exactly in
place, and applying the operator a second time yields the same result as
the first application. -/
theorem C8_adjustment_one_identity (data : Mesh)
    (_h : (nl_adjust_loops data 1).1 = OpStatus.FINISHED) :
    (nl_adjust_loops data 1).2 = data ∧
      nl_adjust_loops ((nl_adjust_loops data 1).2) 1 = nl_adjust_loops data 1 := by
  have hid : (nl_adjust_loops data 1).2 = data := by
    unfold nl_adjust_loops
    split
    · rfl
    · split
      · rfl
      · exact adjustScaleFold_one _ data
  exact ⟨hid, by rw [hid]⟩

/-- Witness for C8_adjustment_one_identity on the concrete mesh M1. -/
theorem C8_witness :
    (nl_adjust_loops M1 1).1 = OpStatus.FINISHED ∧
    ((nl_adjust_loops M1 1).2 = M1 ∧
      nl_adjust_loops ((nl_adjust_loops M1 1).2) 1 = nl_adjust_loops M1 1) :=
  ⟨by decide, C8_adjustment_one_identity M1 (by decide)⟩

/-- C9: a FINISHED run of Adjust Loops or Adjust Adjacent Loops changes no
topology -- the edge list, the polygon list and the number of vertices are
untouched -- and every vertex that is not a member of a retained deduplicated
pair (respectively not an outer vertex of a retained cross-section) keeps its
exact original record. -/
theorem C9_no_topology_change :
    (∀ (data : Mesh) (a : ℚ), (nl_adjust_loops data a).1 = OpStatus.FINISHED →
      (nl_adjust_loops data a).2.edges = data.edges ∧
      (nl_adjust_loops data a).2.polygons = data.polygons ∧
      (nl_adjust_loops data a).2.vertices.length = data.vertices.length ∧
      ∀ v : ℕ, (∀ q ∈ adjustLoopsUnique data, v ≠ q.1 ∧ v ≠ q.2) →
        (nl_adjust_loops data a).2.vertices.getD v default =
          data.vertices.getD v default) ∧
    (∀ (data : Mesh) (a : ℚ), (adjust_adjacent_loops data a).1 = OpStatus.FINISHED →
      (adjust_adjacent_loops data a).2.edges = data.edges ∧
      (adjust_adjacent_loops data a).2.polygons = data.polygons ∧
      (adjust_adjacent_loops data a).2.vertices.length = data.vertices.length ∧
      ∀ v : ℕ, (∀ t ∈ adjAdjUnique data, v ≠ t.1 ∧ v ≠ t.2.2) →
        (adjust_adjacent_loops data a).2.vertices.getD v default =
          data.vertices.getD v default) := by
  constructor
  · intro data a _
    have hsnd : (nl_adjust_loops data a).2 = adjustScaleFold a data (adjustLoopsUnique data) ∨
        (nl_adjust_loops data a).2 = data := by
      unfold nl_adjust_loops
      split
      · exact Or.inr rfl
      · split
        · exact Or.inr rfl
        · exact Or.inl rfl
    rcases hsnd with hsnd | hsnd <;> rw [hsnd]
    · exact ⟨adjustScaleFold_edges a _ data, adjustScaleFold_polygons a _ data,
        adjustScaleFold_num_verts a _ data, fun v hv => adjustScaleFold_frame a _ data v hv⟩
    · exact ⟨rfl, rfl, rfl, fun v _ => rfl⟩
  · intro data a _
    have hsnd : (adjust_adjacent_loops data a).2 = adjAdjScaleFold a data (adjAdjUnique data) ∨
        (adjust_adjacent_loops data a).2 = data := by
      unfold adjust_adjacent_loops
      split
      · exact Or.inr rfl
      · exact Or.inl rfl
    rcases hsnd with hsnd | hsnd <;> rw [hsnd]
    · exact ⟨adjAdjScaleFold_edges a _ data, adjAdjScaleFold_polygons a _ data,
        adjAdjScaleFold_num_verts a _ data, fun v hv => adjAdjScaleFold_frame a _ data v hv⟩
    · exact ⟨rfl, rfl, rfl, fun v _ => rfl⟩

/-- Witness for C9_no_topology_change on the meshes M1 (vertex 4 is in no
retained pair) and M3 (vertex 6 is in no retained cross-section). -/
theorem C9_witness :
    ((nl_adjust_loops M1 5).1 = OpStatus.FINISHED ∧
      (nl_adjust_loops M1 5).2.vertices.getD 4 default = M1.vertices.getD 4 default) ∧
    ((adjust_adjacent_loops M3 5).1 = OpStatus.FINISHED ∧
      (adjust_adjacent_loops M3 5).2.vertices.getD 6 default = M3.vertices.getD 6 default) :=
  ⟨⟨by decide, (C9_no_topology_change.1 M1 5 (by decide)).2.2.2 4 (by decide)⟩,
   ⟨by decide, (C9_no_topology_change.2 M3 5 (by decide)).2.2.2 6 (by decide)⟩⟩

theorem build_end_fst (host : Host) (data : Mesh) (avi : List ℕ) (sel : ℕ × ℕ) (s : ℚ) :
    (build_end host data avi sel s).1 = OpStatus.FINISHED := by
  unfold build_end
  dsimp only
  split <;> rfl

theorem build_corner_fst (host : Host) (data : Mesh) (avi : List ℕ) (sel : ℕ × ℕ)
    (mid : ℕ) (s : ℚ) : (build_corner host data avi sel mid s).1 = OpStatus.FINISHED := rfl

theorem nl_build_core_cases (host : Host) (type : NlBuildType) (data : Mesh) (f : ℚ) :
    nl_build_core host type data f = (OpStatus.CANCELLED, data) ∨
      (nl_build_core host type data f).1 = OpStatus.FINISHED := by
  unfold nl_build_core
  cases type <;> dsimp only <;> (repeat' split) <;>
    simp [build_end_fst, build_corner_fst]

theorem nl_adjust_loops_cases (data : Mesh) (a : ℚ) :
    nl_adjust_loops data a = (OpStatus.CANCELLED, data) ∨
      (nl_adjust_loops data a).1 = OpStatus.FINISHED := by
  unfold nl_adjust_loops
  repeat' split
  · exact Or.inl rfl
  · exact Or.inl rfl
  · exact Or.inr rfl

theorem adjust_adjacent_loops_cases (data : Mesh) (a : ℚ) :
    adjust_adjacent_loops data a = (OpStatus.CANCELLED, data) ∨
      (adjust_adjacent_loops data a).1 = OpStatus.FINISHED := by
  unfold adjust_adjacent_loops
  repeat' split
  · exact Or.inl rfl
  · exact Or.inr rfl

/-- C1 (amended): an invocation of any of the four operators that returns
CANCELLED leaves the mesh exactly as it was: every CANCELLED-producing
validation failure returns before any mesh modification.  The one listed
validation case that does not behave this way is the no-fully-interior-edge
situation of Adjust Adjacent Loops, which does not return CANCELLED at all:
with at least one selected edge but no edge surviving the two-faces filter
the operator returns FINISHED with the mesh untouched. -/
theorem C1_cancelled_means_untouched :
    (∀ (host : Host) (type : NlBuildType) (data : Mesh) (f : ℚ),
      (nl_build_core host type data f).1 = OpStatus.CANCELLED →
        (nl_build_core host type data f).2 = data) ∧
    (∀ (data : Mesh) (a : ℚ),
      (nl_adjust_loops data a).1 = OpStatus.CANCELLED → (nl_adjust_loops data a).2 = data) ∧
    (∀ (data : Mesh) (a : ℚ),
      (adjust_adjacent_loops data a).1 = OpStatus.CANCELLED →
        (adjust_adjacent_loops data a).2 = data) ∧
    (∀ (data : Mesh) (a : ℚ), 1 ≤ (selectedEdges data).length → adjAdjKept data = [] →
      adjust_adjacent_loops data a = (OpStatus.FINISHED, data)) := by
  refine ⟨?_, ?_, ?_, ?_⟩
  · intro host type data f h
    rcases nl_build_core_cases host type data f with hc | hc
    · rw [hc]
    · rw [h] at hc; cases hc
  · intro data a h
    rcases nl_adjust_loops_cases data a with hc | hc
    · rw [hc]
    · rw [h] at hc; cases hc
  · intro data a h
    rcases adjust_adjacent_loops_cases data a with hc | hc
    · rw [hc]
    · rw [h] at hc; cases hc
  · intro data a h1 h2
    have ht : adjAdjTriples data = [] := by
      unfold adjAdjTriples; rw [h2]; rfl
    have hu : adjAdjUnique data = [] := by
      unfold adjAdjUnique; rw [ht]; rfl
    unfold adjust_adjacent_loops
    rw [if_neg (show ¬ (selectedEdges data).length < 1 by omega), hu]
    rfl

/-- Witness for C1_cancelled_means_untouched: a CANCELLED build invocation on
M4 (0 selected vertices) leaves M4 unchanged, and the zero-interior-edge case
of Adjust Adjacent Loops on M4 returns FINISHED with M4 unchanged. -/
theorem C1_witness :
    (nl_build_core trivialHost NlBuildType.end_ M4 (1 / 2)).1 = OpStatus.CANCELLED ∧
    (nl_build_core trivialHost NlBuildType.end_ M4 (1 / 2)).2 = M4 ∧
    1 ≤ (selectedEdges M4).length ∧ adjAdjKept M4 = [] ∧
    adjust_adjacent_loops M4 3 = (OpStatus.FINISHED, M4) :=
  ⟨by decide,
   C1_cancelled_means_untouched.1 trivialHost NlBuildType.end_ M4 (1 / 2) (by decide),
   by decide, by decide,
   C1_cancelled_means_untouched.2.2.2 M4 3 (by decide) (by decide)⟩

theorem dictInsert_forall {α : Type} (P : ℕ × α → Prop) (k : ℕ) (v : α)
    (d : List (ℕ × α)) (hd : ∀ p ∈ d, P p) (hv : P (k, v)) :
    ∀ p ∈ dictInsert k v d, P p := by
  induction d with
  | nil => simpa [dictInsert]
  | cons q rest ih =>
    intro p hp
    simp only [dictInsert] at hp
    by_cases hq : q.1 = k
    · rw [if_pos hq] at hp
      rcases List.mem_cons.mp hp with h | h
      · exact h ▸ hv
      · exact hd p (List.mem_cons_of_mem q h)
    · rw [if_neg hq] at hp
      rcases List.mem_cons.mp hp with h | h
      · exact h ▸ hd q (List.mem_cons_self q rest)
      · exact ih (fun r hr => hd r (List.mem_cons_of_mem q hr)) p h

theorem dictInsert_keys_of_mem {α : Type} (k : ℕ) (v : α) :
    ∀ (d : List (ℕ × α)), k ∈ d.map Prod.fst →
      (dictInsert k v d).map Prod.fst = d.map Prod.fst := by
  intro d
  induction d with
  | nil => intro h; simp at h
  | cons q rest ih =>
    intro h
    rw [List.map_cons, List.mem_cons] at h
    simp only [dictInsert]
    by_cases hq : q.1 = k
    · rw [if_pos hq]; simp [hq]
    · rw [if_neg hq]
      simp only [List.map_cons]
      rw [ih]
      rcases h with h1 | h1
      · exact absurd h1.symm hq
      · exact h1

theorem dictInsert_keys_of_not_mem {α : Type} (k : ℕ) (v : α) :
    ∀ (d : List (ℕ × α)), k ∉ d.map Prod.fst →
      (dictInsert k v d).map Prod.fst = d.map Prod.fst ++ [k] := by
  intro d
  induction d with
  | nil => intro _; rfl
  | cons q rest ih =>
    intro h
    rw [List.map_cons, List.mem_cons] at h
    push_neg at h
    simp only [dictInsert]
    by_cases hq : q.1 = k
    · exact absurd hq.symm h.1
    · rw [if_neg hq]
      simp only [List.map_cons, List.cons_append]
      rw [ih h.2]

theorem dictInsert_keys_nodup {α : Type} (k : ℕ) (v : α) (d : List (ℕ × α))
    (h : (d.map Prod.fst).Nodup) : ((dictInsert k v d).map Prod.fst).Nodup := by
  by_cases hm : k ∈ d.map Prod.fst
  · rw [dictInsert_keys_of_mem k v d hm]; exact h
  · rw [dictInsert_keys_of_not_mem k v d hm, ← List.concat_eq_append]
    exact h.concat hm

theorem filterKey_nil_of_not_mem {α : Type} (key : α → ℕ) (k : ℕ) :
    ∀ (d : List (ℕ × α)), (∀ p ∈ d, p.1 = key p.2) → k ∉ d.map Prod.fst →
      (d.map Prod.snd).filter (fun y => key y = k) = [] := by
  intro d
  induction d with
  | nil => intro _ _; rfl
  | cons q rest ih =>
    intro hinv hm
    rw [List.map_cons, List.mem_cons] at hm
    push_neg at hm
    have hq1 : q.1 = key q.2 := hinv q (List.mem_cons_self q rest)
    have hne : ¬ (key q.2 = k) := fun hc => hm.1 ((hq1.trans hc).symm)
    rw [List.map_cons, List.filter_cons, if_neg (by simpa using hne)]
    exact ih (fun r hr => hinv r (List.mem_cons_of_mem q hr)) hm.2

theorem filterKey_dictInsert_self {α : Type} (key : α → ℕ) (v : α) :
    ∀ (d : List (ℕ × α)), (∀ p ∈ d, p.1 = key p.2) → (d.map Prod.fst).Nodup →
      ((dictInsert (key v) v d).map Prod.snd).filter (fun y => key y = key v) = [v] := by
  intro d
  induction d with
  | nil => simp [dictInsert]
  | cons q rest ih =>
    intro hinv hnd
    have hq1 : q.1 = key q.2 := hinv q (List.mem_cons_self q rest)
    rw [List.map_cons] at hnd
    have hnd2 := List.nodup_cons.mp hnd
    simp only [dictInsert]
    by_cases hq : q.1 = key v
    · rw [if_pos hq, List.map_cons, List.filter_cons, if_pos (by simp)]
      have hrest : (rest.map Prod.snd).filter (fun y => key y = key v) = [] := by
        apply filterKey_nil_of_not_mem key (key v) rest
          (fun r hr => hinv r (List.mem_cons_of_mem q hr))
        rw [← hq]
        exact hnd2.1
      rw [hrest]
    · rw [if_neg hq, List.map_cons, List.filter_cons]
      have hne : ¬ (key q.2 = key v) := by rw [← hq1]; exact hq
      rw [if_neg (by simpa using hne)]
      exact ih (fun r hr => hinv r (List.mem_cons_of_mem q hr)) hnd2.2

theorem filterKey_dictInsert_other {α : Type} (key : α → ℕ) (v : α) (k0 : ℕ)
    (hne : k0 ≠ key v) :
    ∀ (d : List (ℕ × α)), (∀ p ∈ d, p.1 = key p.2) →
      ((dictInsert (key v) v d).map Prod.snd).filter (fun y => key y = k0) =
        (d.map Prod.snd).filter (fun y => key y = k0) := by
  have hvk : ¬ (key v = k0) := fun h => hne h.symm
  intro d
  induction d with
  | nil =>
    intro _
    simp only [dictInsert, List.map_cons, List.map_nil, List.filter_cons, List.filter_nil]
    rw [if_neg (by simpa using hvk)]
  | cons q rest ih =>
    intro hinv
    have hq1 : q.1 = key q.2 := hinv q (List.mem_cons_self q rest)
    simp only [dictInsert]
    by_cases hq : q.1 = key v
    · rw [if_pos hq]
      have h2 : ¬ (key q.2 = k0) := by rw [← hq1, hq]; exact hvk
      rw [List.map_cons, List.filter_cons, if_neg (by simpa using hvk),
        List.map_cons, List.filter_cons, if_neg (by simpa using h2)]
    · rw [if_neg hq]
      simp only [List.map_cons, List.filter_cons]
      rw [ih (fun r hr => hinv r (List.mem_cons_of_mem q hr))]

theorem pyDict_foldl_inv {α : Type} (key : α → ℕ) :
    ∀ (l : List α) (d : List (ℕ × α)), (∀ p ∈ d, p.1 = key p.2) →
      ∀ p ∈ l.foldl (fun d x => dictInsert (key x) x d) d, p.1 = key p.2 := by
  intro l
  induction l with
  | nil => intro d hd; simpa using hd
  | cons x rest ih =>
    intro d hd
    exact ih _ (dictInsert_forall _ (key x) x d hd rfl)

theorem pyDict_foldl_keys_nodup {α : Type} (key : α → ℕ) :
    ∀ (l : List α) (d : List (ℕ × α)), (d.map Prod.fst).Nodup →
      ((l.foldl (fun d x => dictInsert (key x) x d) d).map Prod.fst).Nodup := by
  intro l
  induction l with
  | nil => intro d hd; simpa using hd
  | cons x rest ih =>
    intro d hd
    exact ih _ (dictInsert_keys_nodup (key x) x d hd)

theorem pyDictValues_filter_key {α : Type} (key : α → ℕ) (l : List α) (k : ℕ) :
    (pyDictValues key l).filter (fun y => key y = k) = (lastWithKey key l k).toList := by
  induction l using List.reverseRecOn with
  | nil => rfl
  | append_singleton l x ih =>
    have hD : ((l ++ [x]).foldl (fun d y => dictInsert (key y) y d) []) =
        dictInsert (key x) x (l.foldl (fun d y => dictInsert (key y) y d) []) := by
      rw [List.foldl_append]; rfl
    have hinv := pyDict_foldl_inv key l [] (by simp)
    have hnd := pyDict_foldl_keys_nodup key l [] (by simp)
    by_cases hxk : key x = k
    · subst hxk
      unfold pyDictValues
      rw [hD, filterKey_dictInsert_self key x _ hinv hnd]
      unfold lastWithKey
      rw [List.reverse_append]
      simp [List.find?]
    · unfold pyDictValues at ih ⊢
      rw [hD, filterKey_dictInsert_other key x k (fun h => hxk h.symm) _ hinv, ih]
      unfold lastWithKey
      rw [List.reverse_append]
      simp [List.find?, hxk]

/-- C3 (amended): in both adjust operators the deduplication is keyed as the
claim states (smaller vertex id of the pair, middle vertex of the
cross-section), but for each key the retained element is the LAST pair or
cross-section seen with that key, not the first: the Python dict overwrites
the stored value on a duplicate key. -/
theorem C3_dedup_keeps_last :
    (∀ (data : Mesh) (k : ℕ),
      (adjustLoopsUnique data).filter (fun p => p.1 = k) =
        (lastWithKey (fun p => p.1) (adjustLoopsPairs data) k).toList) ∧
    (∀ (data : Mesh) (k : ℕ),
      (adjAdjUnique data).filter (fun t => t.2.1 = k) =
        (lastWithKey (fun t => t.2.1) (adjAdjTriples data) k).toList) :=
  ⟨fun data k => pyDictValues_filter_key (fun p => p.1) (adjustLoopsPairs data) k,
   fun data k => pyDictValues_filter_key (fun t => t.2.1) (adjAdjTriples data) k⟩

theorem ord_ind_eq_iff (u v a b : ℕ) (hab : a < b) :
    ord_ind u v = (a, b) ↔ (u = a ∧ v = b) ∨ (u = b ∧ v = a) := by
  unfold ord_ind
  split <;> simp only [Prod.mk.injEq] <;> omega

theorem mem_edge_keys_iff (p : MeshPolygon) (a b : ℕ) (hab : a < b) :
    (a, b) ∈ edge_keys p ↔
      ∃ i, i < p.vertices.length ∧
        ((p.vertices.getD i 0 = a ∧ p.vertices.getD ((i + 1) % p.vertices.length) 0 = b) ∨
         (p.vertices.getD i 0 = b ∧ p.vertices.getD ((i + 1) % p.vertices.length) 0 = a)) := by
  unfold edge_keys
  rw [List.mem_map]
  constructor
  · rintro ⟨i, hi, hfi⟩
    rw [List.mem_range] at hi
    exact ⟨i, hi, (ord_ind_eq_iff _ _ a b hab).mp hfi⟩
  · rintro ⟨i, hi, hcase⟩
    exact ⟨i, List.mem_range.mpr hi, (ord_ind_eq_iff _ _ a b hab).mpr hcase⟩

/-- C7: the same-edge verification of Build End.  First, with the host's
canonical edge keys and the ascending selection tuple, the membership test
accepts a pair exactly when the two vertices are consecutive somewhere in the
face cycle, in either traversal orientation -- so the acceptance does not
depend on the orientation in which the pair appears on the face.  Second,
when the selected pair is not an edge of the located hexagon in either
orientation, nl_build_core in end mode returns CANCELLED with the mesh
untouched. -/
theorem C7_same_edge_check :
    (∀ (p : MeshPolygon) (a b : ℕ), a < b →
      ((a, b) ∈ edge_keys p ↔
        ∃ i, i < p.vertices.length ∧
          ((p.vertices.getD i 0 = a ∧ p.vertices.getD ((i + 1) % p.vertices.length) 0 = b) ∨
           (p.vertices.getD i 0 = b ∧ p.vertices.getD ((i + 1) % p.vertices.length) 0 = a)))) ∧
    (∀ (host : Host) (data : Mesh) (f : ℚ) (P : MeshPolygon) (a b : ℕ),
      selectedVertIndices data = [a, b] →
      (data.polygons.filter (fun p => p.vertices.length = 6)).find?
        (fun p => (p.vertices.filter (fun j => j = a ∨ j = b)).length = 2) = some P →
      (a, b) ∉ edge_keys P →
      nl_build_core host NlBuildType.end_ data f = (OpStatus.CANCELLED, data)) := by
  refine ⟨fun p a b hab => mem_edge_keys_iff p a b hab, ?_⟩
  intro host data f P a b hsel hfind hmem
  unfold nl_build_core
  rw [hsel]
  simp only [List.getD_cons_zero, List.getD_cons_succ]
  rw [if_neg (by simp)]
  have hPmem : P ∈ data.polygons.filter (fun p => p.vertices.length = 6) :=
    List.mem_of_find?_eq_some hfind
  rw [if_neg (show ¬ ((data.polygons.filter
      (fun p => p.vertices.length = 6)).length < 1) from by
    have := List.length_pos.mpr (List.ne_nil_of_mem hPmem); omega)]
  rw [hfind]
  dsimp only
  rw [if_neg hmem]

/-- Witness for C7_same_edge_check: the adjacent pair (0,1) of the hexagon
cycle 0..5 is accepted, and on mesh M5 (selected vertices 0 and 2, not on a
common edge) the end path cancels leaving the mesh untouched. -/
theorem C7_witness :
    (0, 1) ∈ edge_keys ⟨[0, 1, 2, 3, 4, 5]⟩ ∧
    nl_build_core trivialHost NlBuildType.end_ M5 (1 / 2) = (OpStatus.CANCELLED, M5) :=
  ⟨(C7_same_edge_check.1 ⟨[0, 1, 2, 3, 4, 5]⟩ 0 1 (by decide)).mpr
      ⟨0, by decide, Or.inl ⟨by decide, by decide⟩⟩,
   C7_same_edge_check.2 trivialHost M5 (1 / 2) ⟨[0, 1, 2, 3, 4, 5]⟩ 0 2
     (by decide) (by decide) (by decide)⟩

theorem edge_keys_length (p : MeshPolygon) : (edge_keys p).length = p.vertices.length := by
  simp [edge_keys]

theorem edge_keys_fst_le (p : MeshPolygon) : ∀ q ∈ edge_keys p, q.1 ≤ q.2 := by
  intro q hq
  unfold edge_keys at hq
  rw [List.mem_map] at hq
  obtain ⟨i, _, he⟩ := hq
  rw [← he]
  unfold ord_ind
  split <;> dsimp <;> omega

theorem sortedPair_swap (e : ℕ × ℕ) : sortedPair (reverse e) = sortedPair e := by
  unfold sortedPair reverse ord_ind
  dsimp only
  split <;> split <;> simp only [Prod.mk.injEq] <;> omega

theorem sortedPair_fst_le (e : ℕ × ℕ) : (sortedPair e).1 ≤ (sortedPair e).2 := by
  unfold sortedPair ord_ind
  split <;> dsimp <;> omega

theorem sortedPair_eq_of_sorted (e : ℕ × ℕ) (h : e.1 ≤ e.2) : sortedPair e = e := by
  obtain ⟨x, y⟩ := e
  unfold sortedPair ord_ind
  dsimp only at h ⊢
  split
  · rfl
  · have hxy : x = y := by omega
    rw [hxy]

theorem match_iff_sorted_mem (ek : List (ℕ × ℕ)) (hsort : ∀ q ∈ ek, q.1 ≤ q.2)
    (e : ℕ × ℕ) : (e ∈ ek ∨ reverse e ∈ ek) ↔ sortedPair e ∈ ek := by
  obtain ⟨x, y⟩ := e
  rcases lt_trichotomy x y with h | h | h
  · rw [sortedPair_eq_of_sorted (x, y) (by dsimp only; omega)]
    have h2 : reverse (x, y) ∉ ek := fun hm => by
      have := hsort _ hm
      unfold reverse at this
      dsimp only at this
      omega
    constructor
    · rintro (hh | hh)
      · exact hh
      · exact absurd hh h2
    · exact Or.inl
  · subst h
    rw [sortedPair_eq_of_sorted (x, x) (le_refl x)]
    have h2 : reverse (x, x) = (x, x) := rfl
    rw [h2, or_self]
  · have h1 : sortedPair (x, y) = reverse (x, y) := by
      unfold sortedPair reverse ord_ind
      dsimp only
      rw [if_neg (by omega)]
    have h2 : (x, y) ∉ ek := fun hm => by
      have := hsort _ hm
      dsimp only at this
      omega
    rw [h1]
    constructor
    · rintro (hh | hh)
      · exact absurd hh h2
      · exact hh
    · exact Or.inr

theorem getD_map_lt {α β : Type} (f : α → β) (l : List α) (j : ℕ) (hj : j < l.length)
    (d : β) (d' : α) : (l.map f).getD j d = f (l.getD j d') := by
  rw [List.getD_eq_getElem?_getD, List.getD_eq_getElem?_getD, List.getElem?_map,
    List.getElem?_eq_getElem hj]
  rfl

theorem adjAdjFaceStep_count (ek : List (ℕ × ℕ)) (hsort : ∀ q ∈ ek, q.1 ≤ q.2)
    (i : ℕ) (r : AdjRec) :
    (adjAdjFaceStep ek i r).2.2 =
      (if r.2.2 < 2 ∧ sortedPair r.1 ∈ ek then r.2.2 + 1 else r.2.2) ∧
    sortedPair (adjAdjFaceStep ek i r).1 = sortedPair r.1 := by
  unfold adjAdjFaceStep
  by_cases h2 : r.2.2 ≥ 2
  · rw [if_pos h2]
    exact ⟨by rw [if_neg (fun hc => by omega)], rfl⟩
  · rw [if_neg h2]
    by_cases hm : sortedPair r.1 ∈ ek
    · by_cases hm1 : r.1 ∈ ek
      · rw [if_pos hm1]
        exact ⟨by rw [if_pos ⟨by omega, hm⟩], rfl⟩
      · rw [if_neg hm1]
        have hm2 : reverse r.1 ∈ ek :=
          ((match_iff_sorted_mem ek hsort r.1).mpr hm).resolve_left hm1
        rw [if_pos hm2]
        exact ⟨by rw [if_pos ⟨by omega, hm⟩], sortedPair_swap r.1⟩
    · have hm1 : r.1 ∉ ek := fun hc =>
        hm ((match_iff_sorted_mem ek hsort r.1).mp (Or.inl hc))
      have hm2 : reverse r.1 ∉ ek := fun hc =>
        hm ((match_iff_sorted_mem ek hsort r.1).mp (Or.inr hc))
      rw [if_neg hm1, if_neg hm2]
      exact ⟨by rw [if_neg (fun hc => hm hc.2)], rfl⟩

/-- Mirror of adjAdjMatchPhase on a single per-edge record: the inner loop of
adjust_adjacent_loops reads and writes only the record of the edge it is
visiting, so the whole phase acts independently on each record. -/
def adjAdjRecPhase : ℕ → List MeshPolygon → AdjRec → AdjRec
  | _, [], r => r
  | i, p :: ps, r =>
    if (edge_keys p).length ≠ 4 then adjAdjRecPhase (i + 1) ps r
    else adjAdjRecPhase (i + 1) ps (adjAdjFaceStep (edge_keys p) i r)

theorem adjAdjMatchPhase_getD (d : AdjRec) :
    ∀ (ps : List MeshPolygon) (i : ℕ) (recs : List AdjRec) (j : ℕ), j < recs.length →
      (adjAdjMatchPhase i ps recs).getD j d = adjAdjRecPhase i ps (recs.getD j d) := by
  intro ps
  induction ps with
  | nil => intro i recs j hj; rfl
  | cons p pss ih =>
    intro i recs j hj
    simp only [adjAdjMatchPhase, adjAdjRecPhase]
    split
    · exact ih (i + 1) recs j hj
    · rw [ih (i + 1) _ j (by simpa using hj)]
      rw [getD_map_lt _ recs j hj d d]

theorem adjAdjRecPhase_count (s : ℕ × ℕ) :
    ∀ (ps : List MeshPolygon) (i : ℕ) (r : AdjRec),
      sortedPair r.1 = s → r.2.2 ≤ 2 →
      (adjAdjRecPhase i ps r).2.2 =
        min 2 (r.2.2 + ps.countP (fun p => (edge_keys p).length = 4 ∧ s ∈ edge_keys p)) := by
  intro ps
  induction ps with
  | nil =>
    intro i r _ h2
    simp only [adjAdjRecPhase, List.countP_nil]
    omega
  | cons p pss ih =>
    intro i r hs h2
    simp only [adjAdjRecPhase, List.countP_cons]
    by_cases hq : (edge_keys p).length ≠ 4
    · rw [if_pos hq, ih (i + 1) r hs h2]
      have hnp : ¬ ((edge_keys p).length = 4 ∧ s ∈ edge_keys p) := fun hc => hq hc.1
      rw [if_neg (by simpa using hnp)]
      omega
    · rw [if_neg hq]
      push_neg at hq
      have hstep := adjAdjFaceStep_count (edge_keys p) (edge_keys_fst_le p) i r
      rw [ih (i + 1) _ (by rw [hstep.2, hs]) (by rw [hstep.1]; split <;> omega)]
      rw [hstep.1, hs]
      by_cases hm : s ∈ edge_keys p
      · by_cases hlt : r.2.2 < 2
        · rw [if_pos ⟨hlt, hm⟩,
            if_pos (show decide ((edge_keys p).length = 4 ∧ s ∈ edge_keys p) = true by
              simp [hq, hm])]
          omega
        · rw [if_neg (fun hc => hlt hc.1),
            if_pos (show decide ((edge_keys p).length = 4 ∧ s ∈ edge_keys p) = true by
              simp [hq, hm])]
          omega
      · have hno : ¬ ((edge_keys p).length = 4 ∧ s ∈ edge_keys p) := fun hc => hm hc.2
        rw [if_neg (fun hc => hm hc.2), if_neg (by simpa using hno)]
        omega

theorem adjAdjMatchPhase_length :
    ∀ (qs : List MeshPolygon) (i : ℕ) (ps : List AdjRec),
      (adjAdjMatchPhase i qs ps).length = ps.length := by
  intro qs
  induction qs with
  | nil => intro i ps; rfl
  | cons q qs ih =>
    intro i ps
    simp only [adjAdjMatchPhase]
    split
    · exact ih (i + 1) ps
    · rw [ih (i + 1) _, List.length_map]

/-- C4 (amended): in Adjust Adjacent Loops the j-th selected edge is retained
for scaling (its record survives the filter, which keeps exactly the records
whose found-face count is 2) if and only if at least 2 quad faces of the mesh
contain the edge.  Boundary edges (fewer than 2 supporting quad faces) are
discarded, but because the per-edge count stops at 2, an edge contained in
more than 2 quad faces (non-manifold) still counts 2 and is retained. -/
theorem C4_retention_iff_two_quads (data : Mesh) (j : ℕ)
    (hj : j < (adjAdjVerts data).length) :
    ((((adjAdjRecords data).getD j ((0, 0), [], 0)).2.2 = 2 ↔
        2 ≤ numQuadFacesWithEdge data ((adjAdjVerts data).getD j (0, 0))) ∧
      ((adjAdjRecords data).getD j ((0, 0), [], 0) ∈ adjAdjKept data ↔
        (((adjAdjRecords data).getD j ((0, 0), [], 0)).2.2 = 2))) := by
  have hlen : j < (adjAdjInitRecs data).length := by
    simpa [adjAdjInitRecs] using hj
  have hrec : (adjAdjRecords data).getD j ((0, 0), [], 0) =
      adjAdjRecPhase 0 data.polygons ((adjAdjVerts data).getD j (0, 0), [], 0) := by
    unfold adjAdjRecords
    rw [adjAdjMatchPhase_getD _ data.polygons 0 _ j hlen]
    unfold adjAdjInitRecs
    rw [getD_map_lt _ (adjAdjVerts data) j hj _ (0, 0)]
  constructor
  · rw [hrec,
      adjAdjRecPhase_count (sortedPair ((adjAdjVerts data).getD j (0, 0)))
        data.polygons 0 _ rfl (Nat.zero_le 2)]
    have hcong : data.polygons.countP
        (fun p => (edge_keys p).length = 4 ∧
          sortedPair ((adjAdjVerts data).getD j (0, 0)) ∈ edge_keys p) =
        numQuadFacesWithEdge data ((adjAdjVerts data).getD j (0, 0)) := by
      unfold numQuadFacesWithEdge
      apply List.countP_congr
      intro p _
      rw [edge_keys_length]
    rw [hcong]
    have h0 : (((adjAdjVerts data).getD j (0, 0), ([] : List ℕ), (0 : ℕ)) : AdjRec).2.2 = 0 :=
      rfl
    rw [h0]
    omega
  · unfold adjAdjKept
    rw [List.mem_filter]
    have hlen2 : j < (adjAdjRecords data).length := by
      unfold adjAdjRecords
      rw [adjAdjMatchPhase_length]
      exact hlen
    have hmem : (adjAdjRecords data).getD j ((0, 0), [], 0) ∈ adjAdjRecords data := by
      rw [List.getD_eq_getElem _ _ hlen2]
      exact List.getElem_mem hlen2
    constructor
    · rintro ⟨_, hc⟩
      simpa using hc
    · intro hc
      exact ⟨hmem, by simpa using hc⟩

/-- Witness for C4_retention_iff_two_quads on mesh M3, edge index 0. -/
theorem C4_retention_witness :
    0 < (adjAdjVerts M3).length ∧
    ((((adjAdjRecords M3).getD 0 ((0, 0), [], 0)).2.2 = 2 ↔
        2 ≤ numQuadFacesWithEdge M3 ((adjAdjVerts M3).getD 0 (0, 0))) ∧
      ((adjAdjRecords M3).getD 0 ((0, 0), [], 0) ∈ adjAdjKept M3 ↔
        (((adjAdjRecords M3).getD 0 ((0, 0), [], 0)).2.2 = 2))) :=
  ⟨by decide, C4_retention_iff_two_quads M3 0 (by decide)⟩
theorem countP_or_eq (a b : ℕ) (hab : a ≠ b) :
    ∀ (l : List ℕ), l.countP (fun j => j = a ∨ j = b) = l.count a + l.count b := by
  intro l
  induction l with
  | nil => rfl
  | cons x xs ih =>
    simp only [List.countP_cons, List.count_cons, ih]
    by_cases hxa : x = a <;> by_cases hxb : x = b <;>
      simp [hxa, hxb, hab, Ne.symm hab] <;> omega

theorem scaleVertsFrom_getD_hit (t : List ℕ) (f : ℚ) (c : Vec3) :
    ∀ (vs : List MeshVertex) (i k : ℕ), (i + k) ∈ t → k < vs.length →
      (scaleVertsFrom t f c i vs).getD k default =
        { vs.getD k default with co := scalePoint f c (vs.getD k default).co } := by
  intro vs
  induction vs with
  | nil => intro i k _ hk; simp at hk
  | cons v rest ih =>
    intro i k hk hklt
    cases k with
    | zero =>
      simp only [scaleVertsFrom, List.getD_cons_zero]
      rw [if_pos (by simpa using hk)]
    | succ k =>
      simp only [scaleVertsFrom, List.getD_cons_succ]
      refine ih (i + 1) k ?_ ?_
      · have he : i + 1 + k = i + (k + 1) := by omega
        rw [he]; exact hk
      · simp only [List.length_cons] at hklt; omega

/-- C6: on a mesh whose only hexagon is P, with the 2 selected vertices
separated by exactly one vertex on either side of the hexagon cycle, Build
Corner succeeds, and -- for any host whose connect primitive moves no vertex
and whose subdivide primitive appends its new vertices and reports at least
one created inner vertex -- the created vertex ends at
opposite + s * (subdivided - opposite), where the opposite vertex is the
hexagon vertex 3 positions away (mod 6) from the middle vertex and
subdivided is the position the subdivision gave the created vertex. -/
theorem C6_build_corner (host : Host) (data : Mesh) (P : MeshPolygon) (a b : ℕ) (s : ℚ)
    (hsel : selectedVertIndices data = [a, b])
    (hP : data.polygons.filter (fun p => p.vertices.length = 6) = [P])
    (hab : a ≠ b)
    (ha : a ∈ P.vertices) (hb : b ∈ P.vertices)
    (hnd : P.vertices.Nodup) (hlen : P.vertices.length = 6)
    (hidx : ∀ v ∈ P.vertices, v < data.vertices.length)
    (hsep : P.vertices.indexOf b = (P.vertices.indexOf a + 2) % 6 ∨
            P.vertices.indexOf a = (P.vertices.indexOf b + 2) % 6)
    (hconn : ∀ (m : Mesh) (u v : ℕ), (host.connect_verts m u v).1.vertices = m.vertices)
    (hsub : ∀ (m : Mesh) (es : List ℕ), ∃ nv : List MeshVertex,
      (host.subdivide_edges m es).1.vertices = m.vertices ++ nv ∧
      (host.subdivide_edges m es).2 ≠ [] ∧
      ∀ c ∈ (host.subdivide_edges m es).2,
        m.vertices.length ≤ c ∧ c < m.vertices.length + nv.length) :
    (nl_build_core host NlBuildType.corner data s).1 = OpStatus.FINISHED ∧
    (let mid := if P.vertices.indexOf b = (P.vertices.indexOf a + 2) % 6
        then (P.vertices.indexOf a + 1) % 6
        else (P.vertices.indexOf b + 1) % 6
     let oppIdx := P.vertices.getD ((mid + 3) % 6) 0
     let output := host.subdivide_edges (host.connect_verts data a b).1
       (host.connect_verts data a b).2
     let created := output.2.headD 0
     ((nl_build_core host NlBuildType.corner data s).2.vertices.getD created default).co =
       scalePoint s ((data.vertices.getD oppIdx default).co)
         ((output.1.vertices.getD created default).co)) := by
  have hpb_lt : P.vertices.indexOf b < P.vertices.length := List.indexOf_lt_length.mpr hb
  have hcount : (P.vertices.filter (fun j => j = a ∨ j = b)).length = 2 := by
    rw [← List.countP_eq_length_filter, countP_or_eq a b hab,
      List.count_eq_one_of_mem hnd ha, List.count_eq_one_of_mem hnd hb]
  have hcore : nl_build_core host NlBuildType.corner data s =
      build_corner host data P.vertices (a, b)
        (if P.vertices.indexOf b = (P.vertices.indexOf a + 2) % 6
         then (P.vertices.indexOf a + 1) % 6
         else (P.vertices.indexOf b + 1) % 6) s := by
    unfold nl_build_core
    rw [hsel]
    simp only [List.getD_cons_zero, List.getD_cons_succ]
    rw [if_neg (by simp), hP, if_neg (by simp)]
    have hfind : ([P].find? (fun p =>
        (p.vertices.filter (fun j => j = a ∨ j = b)).length = 2)) = some P :=
      List.find?_cons_of_pos _ (by simpa using hcount)
    rw [hfind]
    dsimp only
    by_cases hc1 : P.vertices.indexOf b = (P.vertices.indexOf a + 2) % 6
    · rw [if_pos hc1,
        if_pos (show P.vertices.getD ((P.vertices.indexOf a + 2) % 6) 0 = b from by
          rw [← hc1, List.getD_eq_getElem _ _ hpb_lt]
          exact List.getElem_indexOf hpb_lt)]
    · have hsep2 : P.vertices.indexOf a = (P.vertices.indexOf b + 2) % 6 :=
        hsep.resolve_left hc1
      have hmodlt : (P.vertices.indexOf a + 2) % 6 < P.vertices.length := by
        rw [hlen]; exact Nat.mod_lt _ (by norm_num)
      rw [if_neg hc1,
        if_neg (show ¬ (P.vertices.getD ((P.vertices.indexOf a + 2) % 6) 0 = b) from by
          intro hgb
          rw [List.getD_eq_getElem _ _ hmodlt] at hgb
          have := List.indexOf_getElem hnd ((P.vertices.indexOf a + 2) % 6) hmodlt
          rw [hgb] at this
          exact hc1 this),
        if_neg (show ¬ ((P.vertices.indexOf b + 2) % 6 ≠ P.vertices.indexOf a) from
          fun h => h hsep2.symm)]
  dsimp only
  refine ⟨by rw [hcore]; exact build_corner_fst host data P.vertices (a, b) _ s, ?_⟩
  rw [hcore]
  unfold build_corner
  dsimp only
  obtain ⟨nv, hnv, hne2, hbounds⟩ :=
    hsub (host.connect_verts data a b).1 (host.connect_verts data a b).2
  have hv1 : (host.connect_verts data a b).1.vertices = data.vertices := hconn data a b
  have hv2 : (host.subdivide_edges (host.connect_verts data a b).1
      (host.connect_verts data a b).2).1.vertices = data.vertices ++ nv := by
    rw [hnv, hv1]
  have hcreated_mem : (host.subdivide_edges (host.connect_verts data a b).1
      (host.connect_verts data a b).2).2.headD 0 ∈
      (host.subdivide_edges (host.connect_verts data a b).1
        (host.connect_verts data a b).2).2 := by
    cases hout : (host.subdivide_edges (host.connect_verts data a b).1
        (host.connect_verts data a b).2).2 with
    | nil => exact absurd hout hne2
    | cons c t => simp
  have hcb := hbounds _ hcreated_mem
  rw [hv1] at hcb
  have hmid_lt : ((if P.vertices.indexOf b = (P.vertices.indexOf a + 2) % 6
      then (P.vertices.indexOf a + 1) % 6
      else (P.vertices.indexOf b + 1) % 6) + 3) % 6 < P.vertices.length := by
    rw [hlen]; exact Nat.mod_lt _ (by norm_num)
  have hopp_mem : P.vertices.getD (((if P.vertices.indexOf b =
      (P.vertices.indexOf a + 2) % 6
      then (P.vertices.indexOf a + 1) % 6
      else (P.vertices.indexOf b + 1) % 6) + 3) % 6) 0 ∈ P.vertices := by
    rw [List.getD_eq_getElem _ _ hmid_lt]
    exact List.getElem_mem hmid_lt
  have hopp_lt := hidx _ hopp_mem
  unfold scaleMesh
  dsimp only
  rw [scaleVertsFrom_getD_hit _ s _ _ 0 _ (by simp)
    (by rw [hconn, hnv, hconn, List.length_append]; omega)]
  dsimp only
  rw [hconn, hnv, hconn, List.getD_append _ _ _ _ hopp_lt]

/-- Witness for C6_build_corner: mesh M5 with the concrete host trivialHost;
the subdivision puts the created vertex (index 6) at (100,0,0), the opposite
vertex is vertex 4 at (4,16,0), and with slide factor 1/2 the created vertex
ends at (52,8,0). -/
theorem C6_witness :
    (nl_build_core trivialHost NlBuildType.corner M5 (1 / 2)).1 = OpStatus.FINISHED ∧
    ((nl_build_core trivialHost NlBuildType.corner M5 (1 / 2)).2.vertices.getD 6 default).co =
      ((52 : ℚ), (8 : ℚ), (0 : ℚ)) := by
  have h := C6_build_corner trivialHost M5 ⟨[0, 1, 2, 3, 4, 5]⟩ 0 2 (1 / 2)
    (by decide) (by decide) (by decide) (by decide) (by decide) (by decide)
    (by decide) (by decide) (Or.inl (by decide))
    (fun m u v => rfl)
    (fun m es => ⟨[⟨(100, 0, 0), false⟩], rfl, by simp [trivialHost],
      fun c hc => by
        simp [trivialHost] at hc
        subst hc
        exact ⟨le_refl _, by simp⟩⟩)
  refine ⟨h.1, ?_⟩
  have hval : scalePoint (1 / 2) ((4 : ℚ), (16 : ℚ), (0 : ℚ)) ((100 : ℚ), (0 : ℚ), (0 : ℚ)) =
      ((52 : ℚ), (8 : ℚ), (0 : ℚ)) := by
    simp [scalePoint, Prod.smul_mk, Prod.mk_add_mk, Prod.mk_sub_mk, smul_eq_mul]
    norm_num
  rw [← hval]
  exact h.2

theorem sortedPair_idem (e : ℕ × ℕ) : sortedPair (sortedPair e) = sortedPair e :=
  sortedPair_eq_of_sorted _ (sortedPair_fst_le e)

theorem matchPosFrom_length (ek : List (ℕ × ℕ)) :
    ∀ (vs : List (ℕ × ℕ)) (j : ℕ),
      (matchPosFrom ek j vs).length = vs.countP (fun v => sortedPair v ∈ ek) := by
  intro vs
  induction vs with
  | nil => intro j; rfl
  | cons v rest ih =>
    intro j
    simp only [matchPosFrom, List.countP_cons]
    by_cases hm : sortedPair v ∈ ek
    · rw [if_pos hm, if_pos (by simpa using hm)]
      simp [ih (j + 1)]
    · rw [if_neg hm, if_neg (by simpa using hm)]
      simp [ih (j + 1)]

theorem matchPosFrom_mem (ek : List (ℕ × ℕ)) :
    ∀ (vs : List (ℕ × ℕ)) (j m : ℕ), m ∈ matchPosFrom ek j vs →
      ∃ k, m = j + k ∧ k < vs.length ∧ sortedPair (vs.getD k (0, 0)) ∈ ek := by
  intro vs
  induction vs with
  | nil => intro j m hm; simp [matchPosFrom] at hm
  | cons v rest ih =>
    intro j m hm
    simp only [matchPosFrom] at hm
    by_cases hv : sortedPair v ∈ ek
    · rw [if_pos hv] at hm
      rcases List.mem_cons.mp hm with h | h
      · exact ⟨0, by omega, by simp, by simpa using hv⟩
      · obtain ⟨k, hk1, hk2, hk3⟩ := ih (j + 1) m h
        exact ⟨k + 1, by omega, by simp; omega, by simpa using hk3⟩
    · rw [if_neg hv] at hm
      obtain ⟨k, hk1, hk2, hk3⟩ := ih (j + 1) m hm
      exact ⟨k + 1, by omega, by simp; omega, by simpa using hk3⟩

theorem normBudget_length (ek : List (ℕ × ℕ)) :
    ∀ (vs : List (ℕ × ℕ)) (b : ℕ), (normBudget ek b vs).length = vs.length := by
  intro vs
  induction vs with
  | nil => intro b; cases b <;> rfl
  | cons v rest ih =>
    intro b
    cases b with
    | zero => rfl
    | succ b =>
      simp only [normBudget]
      split <;> simp [ih]

theorem normBudget_map_sorted (ek : List (ℕ × ℕ)) :
    ∀ (vs : List (ℕ × ℕ)) (b : ℕ),
      (normBudget ek b vs).map sortedPair = vs.map sortedPair := by
  intro vs
  induction vs with
  | nil => intro b; cases b <;> rfl
  | cons v rest ih =>
    intro b
    cases b with
    | zero => rfl
    | succ b =>
      simp only [normBudget]
      split
      · simp [ih, sortedPair_idem]
      · simp [ih]

theorem normBudget_of_countP_le (ek : List (ℕ × ℕ)) :
    ∀ (vs : List (ℕ × ℕ)) (b : ℕ), vs.countP (fun v => sortedPair v ∈ ek) ≤ b →
      normBudget ek b vs =
        vs.map (fun v => if sortedPair v ∈ ek then sortedPair v else v) := by
  intro vs
  induction vs with
  | nil => intro b _; cases b <;> rfl
  | cons v rest ih =>
    intro b hb
    rw [List.countP_cons] at hb
    by_cases hm : sortedPair v ∈ ek
    · rw [if_pos (by simpa using hm)] at hb
      cases b with
      | zero => omega
      | succ b =>
        simp only [normBudget, List.map_cons]
        rw [if_pos hm, if_pos hm, ih b (by omega)]
    · rw [if_neg (by simpa using hm)] at hb
      cases b with
      | zero =>
        have hc : rest.countP (fun v => sortedPair v ∈ ek) = 0 := by omega
        have : normBudget ek 0 (v :: rest) = v :: rest := rfl
        rw [this, List.map_cons, if_neg hm]
        congr 1
        clear ih hb this
        induction rest with
        | nil => rfl
        | cons w ws ihw =>
          rw [List.countP_cons] at hc
          by_cases hw : sortedPair w ∈ ek
          · rw [if_pos (by simpa using hw)] at hc; omega
          · rw [if_neg (by simpa using hw)] at hc
            rw [List.map_cons, if_neg hw]
            rw [← ihw hc]
      | succ b =>
        simp only [normBudget, List.map_cons]
        rw [if_neg hm, if_neg hm, ih (b + 1) (by omega)]

theorem normBudget_getD_sorted (ek : List (ℕ × ℕ)) :
    ∀ (vs : List (ℕ × ℕ)) (b m : ℕ), ((vs.getD m (0, 0)).1 ≤ (vs.getD m (0, 0)).2) →
      (normBudget ek b vs).getD m (0, 0) = vs.getD m (0, 0) := by
  intro vs
  induction vs with
  | nil => intro b m _; cases b <;> rfl
  | cons v rest ih =>
    intro b m hm
    cases b with
    | zero => rfl
    | succ b =>
      simp only [normBudget]
      by_cases hv : sortedPair v ∈ ek
      · rw [if_pos hv]
        cases m with
        | zero =>
          simp only [List.getD_cons_zero] at hm ⊢
          exact sortedPair_eq_of_sorted v hm
        | succ m =>
          simp only [List.getD_cons_succ] at hm ⊢
          exact ih b m hm
      · rw [if_neg hv]
        cases m with
        | zero => rfl
        | succ m =>
          simp only [List.getD_cons_succ] at hm ⊢
          exact ih (b + 1) m hm

theorem sortedPair_getD_congr (vs vs' : List (ℕ × ℕ))
    (h : vs.map sortedPair = vs'.map sortedPair) (m : ℕ) :
    sortedPair (vs.getD m (0, 0)) = sortedPair (vs'.getD m (0, 0)) := by
  have hlen : vs.length = vs'.length := by
    have := congrArg List.length h
    simpa using this
  by_cases hm : m < vs.length
  · have h1 : (vs.map sortedPair).getD m (sortedPair (0, 0)) =
        sortedPair (vs.getD m (0, 0)) := getD_map_lt _ _ _ hm _ _
    have h2 : (vs'.map sortedPair).getD m (sortedPair (0, 0)) =
        sortedPair (vs'.getD m (0, 0)) := getD_map_lt _ _ _ (by omega) _ _
    rw [← h1, ← h2, h]
  · rw [List.getD_eq_default _ _ (by omega), List.getD_eq_default _ _ (by omega)]

theorem matchPosFrom_congr (ek : List (ℕ × ℕ)) :
    ∀ (vs vs' : List (ℕ × ℕ)), vs.map sortedPair = vs'.map sortedPair →
      ∀ (j : ℕ), matchPosFrom ek j vs = matchPosFrom ek j vs' := by
  intro vs
  induction vs with
  | nil =>
    intro vs' h j
    cases vs' with
    | nil => rfl
    | cons v' r' => simp at h
  | cons v rest ih =>
    intro vs' h j
    cases vs' with
    | nil => simp at h
    | cons v' r' =>
      simp only [List.map_cons, List.cons.injEq] at h
      simp only [matchPosFrom, h.1]
      rw [ih r' h.2 (j + 1)]

theorem countP_sorted_congr (ek : List (ℕ × ℕ)) (vs vs' : List (ℕ × ℕ))
    (h : vs.map sortedPair = vs'.map sortedPair) :
    vs.countP (fun v => sortedPair v ∈ ek) = vs'.countP (fun v => sortedPair v ∈ ek) := by
  have h1 : vs.countP (fun v => sortedPair v ∈ ek) =
      (vs.map sortedPair).countP (fun v => v ∈ ek) := by
    rw [List.countP_map]; rfl
  have h2 : vs'.countP (fun v => sortedPair v ∈ ek) =
      (vs'.map sortedPair).countP (fun v => v ∈ ek) := by
    rw [List.countP_map]; rfl
  rw [h1, h2, h]

theorem adjustFaceScan_spec (ek : List (ℕ × ℕ)) (hsort : ∀ q ∈ ek, q.1 ≤ q.2) :
    ∀ (vs : List (ℕ × ℕ)) (j cnt : ℕ) (fdata : List ℕ), cnt ≤ 3 →
      adjustFaceScan ek j cnt fdata vs =
        (normBudget ek (3 - cnt) vs,
         min 3 (cnt + vs.countP (fun v => sortedPair v ∈ ek)),
         fdata ++ (matchPosFrom ek j vs).take (3 - cnt)) := by
  intro vs
  induction vs with
  | nil =>
    intro j cnt fdata hc
    simp only [adjustFaceScan, List.countP_nil, matchPosFrom, List.take_nil, List.append_nil]
    have h1 : normBudget ek (3 - cnt) ([] : List (ℕ × ℕ)) = [] := by
      cases h : 3 - cnt <;> rfl
    rw [h1]
    simp only [Prod.mk.injEq]
    refine ⟨trivial, by omega, trivial⟩
  | cons v rest ih =>
    intro j cnt fdata hc
    by_cases h3 : cnt ≥ 3
    · have hc3 : cnt = 3 := by omega
      subst hc3
      simp only [adjustFaceScan, if_pos h3]
      have h1 : (3 : ℕ) - 3 = 0 := rfl
      rw [h1]
      simp only [normBudget, List.take_zero, List.append_nil, Prod.mk.injEq]
      refine ⟨trivial, by omega, trivial⟩
    · have hlt : cnt < 3 := by omega
      have hsub : 3 - cnt = (3 - (cnt + 1)) + 1 := by omega
      simp only [adjustFaceScan, if_neg h3]
      by_cases hm : sortedPair v ∈ ek
      · by_cases hm1 : v ∈ ek
        · have hveq : sortedPair v = v := sortedPair_eq_of_sorted v (hsort v hm1)
          rw [if_pos hm1, ih (j + 1) (cnt + 1) (fdata ++ [j]) (by omega)]
          rw [hsub]
          simp only [normBudget, matchPosFrom, if_pos hm, List.countP_cons,
            if_pos (show decide (sortedPair v ∈ ek) = true by simpa using hm),
            List.take_succ_cons, Prod.mk.injEq]
          refine ⟨by rw [hveq], by omega, by rw [List.append_assoc]; rfl⟩
        · have hm2 : reverse v ∈ ek :=
            ((match_iff_sorted_mem ek hsort v).mpr hm).resolve_left hm1
          have hveq : sortedPair v = reverse v := by
            by_cases hv12 : v.1 ≤ v.2
            · exact absurd (sortedPair_eq_of_sorted v hv12 ▸ hm) hm1
            · unfold sortedPair reverse ord_ind
              rw [if_neg (by omega)]
          rw [if_neg hm1, if_pos hm2, ih (j + 1) (cnt + 1) (fdata ++ [j]) (by omega)]
          rw [hsub]
          simp only [normBudget, matchPosFrom, if_pos hm, List.countP_cons,
            if_pos (show decide (sortedPair v ∈ ek) = true by simpa using hm),
            List.take_succ_cons, Prod.mk.injEq]
          refine ⟨by rw [hveq], by omega, by rw [List.append_assoc]; rfl⟩
      · have hm1 : v ∉ ek := fun hc2 =>
          hm ((match_iff_sorted_mem ek hsort v).mp (Or.inl hc2))
        have hm2 : reverse v ∉ ek := fun hc2 =>
          hm ((match_iff_sorted_mem ek hsort v).mp (Or.inr hc2))
        rw [if_neg hm1, if_neg hm2, ih (j + 1) cnt fdata (by omega)]
        rw [hsub]
        simp only [normBudget, matchPosFrom, if_neg hm, List.countP_cons,
          if_neg (show ¬ (decide (sortedPair v ∈ ek) = true) by simpa using hm),
          Prod.mk.injEq]
        refine ⟨trivial, by omega, trivial⟩

theorem faceDataSpec_congr :
    ∀ (ps : List MeshPolygon) (vs vs' : List (ℕ × ℕ)),
      vs.map sortedPair = vs'.map sortedPair →
      faceDataSpec vs ps = faceDataSpec vs' ps := by
  intro ps
  induction ps with
  | nil => intro vs vs' _; rfl
  | cons p ps ih =>
    intro vs vs' h
    simp only [faceDataSpec]
    rw [ih vs vs' h, countP_sorted_congr (edge_keys p) vs vs' h,
      matchPosFrom_congr (edge_keys p) vs vs' h 0]

theorem adjustMatchPhase_spec :
    ∀ (ps : List MeshPolygon) (vs : List (ℕ × ℕ)),
      (adjustMatchPhase ps vs).1.map sortedPair = vs.map sortedPair ∧
      (adjustMatchPhase ps vs).2 = faceDataSpec vs ps := by
  intro ps
  induction ps with
  | nil => intro vs; exact ⟨rfl, rfl⟩
  | cons p ps ih =>
    intro vs
    simp only [adjustMatchPhase, faceDataSpec]
    by_cases hq : (edge_keys p).length ≠ 4
    · rw [if_pos hq]
      simp only [if_pos hq]
      exact ⟨(ih vs).1, by rw [(ih vs).2]⟩
    · rw [if_neg hq]
      simp only [if_neg hq]
      rw [adjustFaceScan_spec (edge_keys p) (edge_keys_fst_le p) vs 0 0 [] (by omega)]
      dsimp only
      have hmap := normBudget_map_sorted (edge_keys p) vs (3 - 0)
      constructor
      · rw [(ih _).1, hmap]
      · rw [(ih _).2, faceDataSpec_congr ps _ vs hmap]
        simp

theorem adjustMatchPhase_length :
    ∀ (ps : List MeshPolygon) (vs : List (ℕ × ℕ)),
      (adjustMatchPhase ps vs).1.length = vs.length := by
  intro ps vs
  have h := congrArg List.length (adjustMatchPhase_spec ps vs).1
  simpa using h

theorem adjustMatchPhase_getD_sorted :
    ∀ (ps : List MeshPolygon) (vs : List (ℕ × ℕ)) (m : ℕ),
      (vs.getD m (0, 0)).1 ≤ (vs.getD m (0, 0)).2 →
      (adjustMatchPhase ps vs).1.getD m (0, 0) = vs.getD m (0, 0) := by
  intro ps
  induction ps with
  | nil => intro vs m _; rfl
  | cons p ps ih =>
    intro vs m hm
    simp only [adjustMatchPhase]
    by_cases hq : (edge_keys p).length ≠ 4
    · rw [if_pos hq]
      exact ih vs m hm
    · rw [if_neg hq]
      rw [adjustFaceScan_spec (edge_keys p) (edge_keys_fst_le p) vs 0 0 [] (by omega)]
      dsimp only
      have hfix := normBudget_getD_sorted (edge_keys p) vs (3 - 0) m hm
      rw [ih _ m (by rw [hfix]; exact hm), hfix]

theorem adjustMatchPhase_getD_matched :
    ∀ (ps : List MeshPolygon) (vs : List (ℕ × ℕ)) (p : MeshPolygon) (m : ℕ),
      p ∈ ps → (edge_keys p).length = 4 →
      vs.countP (fun v => sortedPair v ∈ edge_keys p) ≤ 3 →
      sortedPair (vs.getD m (0, 0)) ∈ edge_keys p → m < vs.length →
      (adjustMatchPhase ps vs).1.getD m (0, 0) = sortedPair (vs.getD m (0, 0)) := by
  intro ps
  induction ps with
  | nil => intro vs p m hp; simp at hp
  | cons q ps ih =>
    intro vs p m hp hq4 hcle hmem hmlt
    rcases List.mem_cons.mp hp with hpq | hp2
    · subst hpq
      simp only [adjustMatchPhase, if_neg (show ¬ ((edge_keys p).length ≠ 4) from by omega)]
      rw [adjustFaceScan_spec (edge_keys p) (edge_keys_fst_le p) vs 0 0 [] (by omega)]
      dsimp only
      have hfull := normBudget_of_countP_le (edge_keys p) vs (3 - 0) (by omega)
      have hval : (normBudget (edge_keys p) (3 - 0) vs).getD m (0, 0) =
          sortedPair (vs.getD m (0, 0)) := by
        rw [hfull, getD_map_lt _ vs m hmlt _ (0, 0), if_pos hmem]
      rw [adjustMatchPhase_getD_sorted ps _ m (by rw [hval]; exact sortedPair_fst_le _),
        hval]
    · simp only [adjustMatchPhase]
      by_cases hq : (edge_keys q).length ≠ 4
      · rw [if_pos hq]
        exact ih vs p m hp2 hq4 hcle hmem hmlt
      · rw [if_neg hq]
        rw [adjustFaceScan_spec (edge_keys q) (edge_keys_fst_le q) vs 0 0 [] (by omega)]
        dsimp only
        have hmap := normBudget_map_sorted (edge_keys q) vs (3 - 0)
        have hsp := sortedPair_getD_congr _ vs hmap m
        rw [ih _ p m hp2 hq4
          (by rw [countP_sorted_congr (edge_keys p) _ vs hmap]; exact hcle)
          (by rw [hsp]; exact hmem)
          (by rw [normBudget_length]; exact hmlt), hsp]

theorem matchPosFrom_zero_mem (ek : List (ℕ × ℕ)) (vs : List (ℕ × ℕ)) (m : ℕ)
    (hm : m ∈ matchPosFrom ek 0 vs) :
    m < vs.length ∧ sortedPair (vs.getD m (0, 0)) ∈ ek := by
  obtain ⟨k, hk, hklt, hkin⟩ := matchPosFrom_mem ek vs 0 m hm
  exact ⟨by omega, by rw [show m = k from by omega]; exact hkin⟩

theorem faceDataSpec_length :
    ∀ (ps : List MeshPolygon) (vs : List (ℕ × ℕ)),
      (faceDataSpec vs ps).length = ps.length := by
  intro ps
  induction ps with
  | nil => intro vs; rfl
  | cons p ps ih => intro vs; simp [faceDataSpec, ih vs]

theorem faceDataSpec_getD :
    ∀ (ps : List MeshPolygon) (vs : List (ℕ × ℕ)) (t : ℕ), t < ps.length →
      (faceDataSpec vs ps).getD t (0, []) =
        (if (edge_keys (ps.getD t default)).length ≠ 4 then (0, [])
         else (min 3 (vs.countP (fun v => sortedPair v ∈ edge_keys (ps.getD t default))),
               (matchPosFrom (edge_keys (ps.getD t default)) 0 vs).take 3)) := by
  intro ps
  induction ps with
  | nil => intro vs t ht; simp at ht
  | cons p ps ih =>
    intro vs t ht
    cases t with
    | zero => simp [faceDataSpec]
    | succ t' =>
      have ht' : t' < ps.length := by simpa using ht
      simp only [faceDataSpec, List.getD_cons_succ]
      exact ih vs t' ht'

theorem adjustLoopsFilterAux_mem :
    ∀ (ps : List MeshPolygon) (fds : List (ℕ × List ℕ)) (i0 : ℕ)
      (verts : List (ℕ × ℕ)) (i : ℕ) (e : ℕ × ℕ),
      ps.length = fds.length →
      ((i, e) ∈ adjustLoopsFilterAux i0 ps fds verts ↔
        ∃ t : ℕ, t < ps.length ∧ i = i0 + t ∧
          (fds.getD t (0, [])).1 = 2 ∧
          e = verts.getD ((fds.getD t (0, [])).2.getD 0 0) (0, 0) ∧
          (((edge_keys (ps.getD t default)).indexOf e : ℤ) -
            ((edge_keys (ps.getD t default)).indexOf
              (verts.getD ((fds.getD t (0, [])).2.getD 1 0) (0, 0)) : ℤ)).natAbs = 2) := by
  intro ps
  induction ps with
  | nil =>
    intro fds i0 verts i e _
    simp [adjustLoopsFilterAux]
  | cons p ps ih =>
    intro fds i0 verts i e hlen
    cases fds with
    | nil => exact absurd hlen (by simp)
    | cons fd fds =>
      have hlen' : ps.length = fds.length := by simpa using hlen
      have hsucc :
          ((i, e) ∈ adjustLoopsFilterAux (i0 + 1) ps fds verts ↔
            ∃ t : ℕ, t + 1 < (p :: ps).length ∧ i = i0 + (t + 1) ∧
              ((fd :: fds).getD (t + 1) (0, [])).1 = 2 ∧
              e = verts.getD (((fd :: fds).getD (t + 1) (0, [])).2.getD 0 0) (0, 0) ∧
              (((edge_keys ((p :: ps).getD (t + 1) default)).indexOf e : ℤ) -
                ((edge_keys ((p :: ps).getD (t + 1) default)).indexOf
                  (verts.getD (((fd :: fds).getD (t + 1) (0, [])).2.getD 1 0)
                    (0, 0)) : ℤ)).natAbs = 2) := by
        rw [ih fds (i0 + 1) verts i e hlen']
        constructor
        · rintro ⟨t, ht, hi, hfd, he, hd⟩
          exact ⟨t, by simp only [List.length_cons]; omega, by omega,
            by simpa using hfd, by simpa using he, by simpa using hd⟩
        · rintro ⟨t, ht, hi, hfd, he, hd⟩
          exact ⟨t, by simp only [List.length_cons] at ht; omega, by omega,
            by simpa using hfd, by simpa using he, by simpa using hd⟩
      unfold adjustLoopsFilterAux
      dsimp only
      by_cases h2 : fd.1 ≠ 2
      · rw [if_pos h2, hsucc]
        constructor
        · rintro ⟨t, ht, hi, hfd, he, hd⟩
          exact ⟨t + 1, ht, hi, hfd, he, hd⟩
        · rintro ⟨t, ht, hi, hfd, he, hd⟩
          cases t with
          | zero => exact absurd (by simpa using hfd) h2
          | succ t' => exact ⟨t', ht, hi, hfd, he, hd⟩
      · have h2' : fd.1 = 2 := not_not.mp h2
        rw [if_neg h2]
        by_cases hdc :
            (((edge_keys p).indexOf (verts.getD (fd.2.getD 0 0) (0, 0)) : ℤ) -
              ((edge_keys p).indexOf (verts.getD (fd.2.getD 1 0) (0, 0)) : ℤ)).natAbs ≠ 2
        · rw [if_pos hdc, hsucc]
          constructor
          · rintro ⟨t, ht, hi, hfd, he, hd⟩
            exact ⟨t + 1, ht, hi, hfd, he, hd⟩
          · rintro ⟨t, ht, hi, hfd, he, hd⟩
            cases t with
            | zero =>
              have he0 : e = verts.getD (fd.2.getD 0 0) (0, 0) := by simpa using he
              have hd0 : (((edge_keys p).indexOf e : ℤ) -
                  ((edge_keys p).indexOf
                    (verts.getD (fd.2.getD 1 0) (0, 0)) : ℤ)).natAbs = 2 := by
                simpa using hd
              rw [he0] at hd0
              exact absurd hd0 hdc
            | succ t' => exact ⟨t', ht, hi, hfd, he, hd⟩
        · rw [if_neg hdc]
          have hdeq : (((edge_keys p).indexOf (verts.getD (fd.2.getD 0 0) (0, 0)) : ℤ) -
              ((edge_keys p).indexOf
                (verts.getD (fd.2.getD 1 0) (0, 0)) : ℤ)).natAbs = 2 := not_not.mp hdc
          rw [List.mem_cons, hsucc]
          constructor
          · rintro (hhead | ⟨t, ht, hi, hfd, he, hd⟩)
            · obtain ⟨hi0, he0⟩ : i = i0 ∧ e = verts.getD (fd.2.getD 0 0) (0, 0) := by
                simpa [Prod.ext_iff] using hhead
              refine ⟨0, by simp, by omega, by simpa using h2', by simpa using he0, ?_⟩
              simp only [List.getD_cons_zero]
              rw [he0]
              exact hdeq
            · exact ⟨t + 1, ht, hi, hfd, he, hd⟩
          · rintro ⟨t, ht, hi, hfd, he, hd⟩
            cases t with
            | zero =>
              refine Or.inl ?_
              rw [Prod.mk.injEq]
              exact ⟨by omega, by simpa using he⟩
            | succ t' => exact Or.inr ⟨t', ht, hi, hfd, he, hd⟩

/-- C5: in Adjust Loops a face contributes a rail-vertex pair (appears in the
filtered face list) iff it is a quad whose edge-key list is matched by exactly
2 of the selected edges, in either orientation, and the positions in the
4-entry edge-key list of the 2 matched edges differ by exactly 2.  The scan
stops once 3 matches are found, which cannot produce the count 2, so 3-or-more
matched faces are disqualified exactly as claimed. -/
theorem C5_face_qualification (data : Mesh) (i : ℕ) :
    (∃ e, (i, e) ∈ adjustLoopsFiltered data) ↔
      (i < data.polygons.length ∧
       (edge_keys (data.polygons.getD i default)).length = 4 ∧
       (selMatches data (edge_keys (data.polygons.getD i default))).length = 2 ∧
       (((edge_keys (data.polygons.getD i default)).indexOf
           (sortedPair ((adjustLoopsVerts data).getD
             ((selMatches data (edge_keys (data.polygons.getD i default))).getD 0 0)
             (0, 0))) : ℤ) -
        ((edge_keys (data.polygons.getD i default)).indexOf
           (sortedPair ((adjustLoopsVerts data).getD
             ((selMatches data (edge_keys (data.polygons.getD i default))).getD 1 0)
             (0, 0))) : ℤ)).natAbs = 2) := by
  have hspec := adjustMatchPhase_spec data.polygons (adjustLoopsVerts data)
  have hfds : (adjustLoopsMatch data).2
      = faceDataSpec (adjustLoopsVerts data) data.polygons := hspec.2
  have hlen : data.polygons.length = (adjustLoopsMatch data).2.length := by
    rw [hfds, faceDataSpec_length]
  constructor
  · rintro ⟨e, he⟩
    unfold adjustLoopsFiltered at he
    rw [adjustLoopsFilterAux_mem data.polygons (adjustLoopsMatch data).2 0
      (adjustLoopsMatch data).1 i e hlen] at he
    obtain ⟨t, ht, hit, hfd1, hee, hdiff⟩ := he
    have hti : t = i := by omega
    rw [hti] at ht hfd1 hee hdiff
    rw [hfds, faceDataSpec_getD data.polygons (adjustLoopsVerts data) i ht]
      at hfd1 hee hdiff
    by_cases hq : (edge_keys (data.polygons.getD i default)).length ≠ 4
    · rw [if_pos hq] at hfd1
      simp at hfd1
    · rw [if_neg hq] at hfd1 hee hdiff
      dsimp only at hfd1 hee hdiff
      have hq4 : (edge_keys (data.polygons.getD i default)).length = 4 := not_not.mp hq
      have hcnt : (adjustLoopsVerts data).countP
          (fun v => sortedPair v ∈ edge_keys (data.polygons.getD i default)) = 2 := by
        omega
      have hmslen : (matchPosFrom (edge_keys (data.polygons.getD i default)) 0
          (adjustLoopsVerts data)).length = 2 := by
        rw [matchPosFrom_length]
        exact hcnt
      have htake : (matchPosFrom (edge_keys (data.polygons.getD i default)) 0
          (adjustLoopsVerts data)).take 3
          = matchPosFrom (edge_keys (data.polygons.getD i default)) 0
            (adjustLoopsVerts data) :=
        List.take_of_length_le (by omega)
      rw [htake] at hee hdiff
      have hp : data.polygons.getD i default ∈ data.polygons := by
        rw [List.getD_eq_getElem data.polygons default ht]
        exact List.getElem_mem ht
      have h0lt : 0 < (matchPosFrom (edge_keys (data.polygons.getD i default)) 0
          (adjustLoopsVerts data)).length := by omega
      have h1lt : 1 < (matchPosFrom (edge_keys (data.polygons.getD i default)) 0
          (adjustLoopsVerts data)).length := by omega
      have hm0mem := matchPosFrom_zero_mem (edge_keys (data.polygons.getD i default))
        (adjustLoopsVerts data)
        ((matchPosFrom (edge_keys (data.polygons.getD i default)) 0
          (adjustLoopsVerts data)).getD 0 0)
        (by rw [List.getD_eq_getElem _ _ h0lt]; exact List.getElem_mem h0lt)
      have hm1mem := matchPosFrom_zero_mem (edge_keys (data.polygons.getD i default))
        (adjustLoopsVerts data)
        ((matchPosFrom (edge_keys (data.polygons.getD i default)) 0
          (adjustLoopsVerts data)).getD 1 0)
        (by rw [List.getD_eq_getElem _ _ h1lt]; exact List.getElem_mem h1lt)
      have hv0 : (adjustLoopsMatch data).1.getD
          ((matchPosFrom (edge_keys (data.polygons.getD i default)) 0
            (adjustLoopsVerts data)).getD 0 0) (0, 0)
          = sortedPair ((adjustLoopsVerts data).getD
            ((matchPosFrom (edge_keys (data.polygons.getD i default)) 0
              (adjustLoopsVerts data)).getD 0 0) (0, 0)) :=
        adjustMatchPhase_getD_matched data.polygons (adjustLoopsVerts data)
          (data.polygons.getD i default) _ hp hq4 (by omega) hm0mem.2 hm0mem.1
      have hv1 : (adjustLoopsMatch data).1.getD
          ((matchPosFrom (edge_keys (data.polygons.getD i default)) 0
            (adjustLoopsVerts data)).getD 1 0) (0, 0)
          = sortedPair ((adjustLoopsVerts data).getD
            ((matchPosFrom (edge_keys (data.polygons.getD i default)) 0
              (adjustLoopsVerts data)).getD 1 0) (0, 0)) :=
        adjustMatchPhase_getD_matched data.polygons (adjustLoopsVerts data)
          (data.polygons.getD i default) _ hp hq4 (by omega) hm1mem.2 hm1mem.1
      rw [hee, hv0, hv1] at hdiff
      exact ⟨ht, hq4, hmslen, hdiff⟩
  · rintro ⟨hlt, hq4, hms2, hd⟩
    have hmslen : (matchPosFrom (edge_keys (data.polygons.getD i default)) 0
        (adjustLoopsVerts data)).length = 2 := hms2
    have hcnt : (adjustLoopsVerts data).countP
        (fun v => sortedPair v ∈ edge_keys (data.polygons.getD i default)) = 2 := by
      rw [← matchPosFrom_length (edge_keys (data.polygons.getD i default))
        (adjustLoopsVerts data) 0]
      exact hmslen
    have htake : (matchPosFrom (edge_keys (data.polygons.getD i default)) 0
        (adjustLoopsVerts data)).take 3
        = matchPosFrom (edge_keys (data.polygons.getD i default)) 0
          (adjustLoopsVerts data) :=
      List.take_of_length_le (by omega)
    have hp : data.polygons.getD i default ∈ data.polygons := by
      rw [List.getD_eq_getElem data.polygons default hlt]
      exact List.getElem_mem hlt
    have h0lt : 0 < (matchPosFrom (edge_keys (data.polygons.getD i default)) 0
        (adjustLoopsVerts data)).length := by omega
    have h1lt : 1 < (matchPosFrom (edge_keys (data.polygons.getD i default)) 0
        (adjustLoopsVerts data)).length := by omega
    have hm0mem := matchPosFrom_zero_mem (edge_keys (data.polygons.getD i default))
      (adjustLoopsVerts data)
      ((matchPosFrom (edge_keys (data.polygons.getD i default)) 0
        (adjustLoopsVerts data)).getD 0 0)
      (by rw [List.getD_eq_getElem _ _ h0lt]; exact List.getElem_mem h0lt)
    have hm1mem := matchPosFrom_zero_mem (edge_keys (data.polygons.getD i default))
      (adjustLoopsVerts data)
      ((matchPosFrom (edge_keys (data.polygons.getD i default)) 0
        (adjustLoopsVerts data)).getD 1 0)
      (by rw [List.getD_eq_getElem _ _ h1lt]; exact List.getElem_mem h1lt)
    have hv0 : (adjustLoopsMatch data).1.getD
        ((matchPosFrom (edge_keys (data.polygons.getD i default)) 0
          (adjustLoopsVerts data)).getD 0 0) (0, 0)
        = sortedPair ((adjustLoopsVerts data).getD
          ((matchPosFrom (edge_keys (data.polygons.getD i default)) 0
            (adjustLoopsVerts data)).getD 0 0) (0, 0)) :=
      adjustMatchPhase_getD_matched data.polygons (adjustLoopsVerts data)
        (data.polygons.getD i default) _ hp hq4 (by omega) hm0mem.2 hm0mem.1
    have hv1 : (adjustLoopsMatch data).1.getD
        ((matchPosFrom (edge_keys (data.polygons.getD i default)) 0
          (adjustLoopsVerts data)).getD 1 0) (0, 0)
        = sortedPair ((adjustLoopsVerts data).getD
          ((matchPosFrom (edge_keys (data.polygons.getD i default)) 0
            (adjustLoopsVerts data)).getD 1 0) (0, 0)) :=
      adjustMatchPhase_getD_matched data.polygons (adjustLoopsVerts data)
        (data.polygons.getD i default) _ hp hq4 (by omega) hm1mem.2 hm1mem.1
    refine ⟨(adjustLoopsMatch data).1.getD
      ((matchPosFrom (edge_keys (data.polygons.getD i default)) 0
        (adjustLoopsVerts data)).getD 0 0) (0, 0), ?_⟩
    unfold adjustLoopsFiltered
    rw [adjustLoopsFilterAux_mem data.polygons (adjustLoopsMatch data).2 0
      (adjustLoopsMatch data).1 i _ hlen]
    refine ⟨i, hlt, by omega, ?_, ?_, ?_⟩
    · rw [hfds, faceDataSpec_getD data.polygons (adjustLoopsVerts data) i hlt,
        if_neg (not_not.mpr hq4)]
      dsimp only
      omega
    · rw [hfds, faceDataSpec_getD data.polygons (adjustLoopsVerts data) i hlt,
        if_neg (not_not.mpr hq4)]
      dsimp only
      rw [htake]
    · rw [hfds, faceDataSpec_getD data.polygons (adjustLoopsVerts data) i hlt,
        if_neg (not_not.mpr hq4)]
      dsimp only
      rw [htake, hv0, hv1]
      exact hd
